import Mathlib

set_option maxHeartbeats 1000000

/-
Verification development for the core of the slippy-map raster tile engine
in src/dst/index.esm.js (viewport resolver, LOD fallback policy, band and
selector algebra, tile chunk loading, loading tracker, and the geographic
point-to-tile conversions).

Modelling conventions:
 - JS numbers are modelled by Rat where real-valued arithmetic matters and
   by Int / Nat where the code manipulates integers.
 - Transcendental subexpressions (Math.log / Math.sin inside the Mercator
   conversion, and the real-valued pixel scale 2^(zoom - z)) enter the
   definitions as explicit parameters; the theorems quantify over every
   possible value of those parameters.
 - JS objects used as ordered string-keyed maps are modelled as
   association lists with insert-or-overwrite-in-place semantics.
 - Asynchronous control flow (promise continuations) is modelled by a
   small event language: each continuation that can interleave with other
   engine operations becomes an event, and executions are arbitrary lists
   of events applied to a state by a step function.
-/

/-! Part 1: zoomToLevel (source lines 1522-1525). -/

/-- Model of `zoomToLevel`: `if (maxZoom) return Math.min(Math.max(0, Math.floor(zoom)), maxZoom); return Math.max(0, Math.floor(zoom))`. JS truthiness sends `maxZoom = 0` into the second, unclamped branch. -/
def zoomToLevel (zoom : Rat) (maxZoom : Nat) : Int :=
  if maxZoom ≠ 0 then min (max 0 ⌊zoom⌋) (maxZoom : Int) else max 0 ⌊zoom⌋

/-- C8, counterexample: at `maxZoom = 0` (a one-level pyramid) the code does not clamp: `zoomToLevel 3 0 = 3`, while the claimed formula `min (max 0 ⌊zoom⌋) maxZoom` gives 0. -/
theorem zoomToLevel_counterexample :
    zoomToLevel 3 0 = 3 ∧ zoomToLevel 3 0 ≠ min (max 0 ⌊(3 : Rat)⌋) (0 : Int) := by
  constructor
  · norm_num [zoomToLevel]
  · norm_num [zoomToLevel]

/-- C8, amended: for every zoom and every nonzero (JS-truthy) maxZoom, the level is floor(zoom) clamped into [0, maxZoom]; at maxZoom = 0 the code returns max 0 ⌊zoom⌋ unclamped. -/
theorem zoomToLevel_clamps_for_positive_maxZoom :
    ∀ (zoom : Rat) (maxZoom : Nat), maxZoom ≠ 0 →
      zoomToLevel zoom maxZoom = min (max 0 ⌊zoom⌋) (maxZoom : Int) := by
  intro zoom maxZoom h
  simp [zoomToLevel, h]

/-- Witness for the amended C8 theorem at zoom 5, maxZoom 2. -/
theorem zoomToLevel_clamps_witness : zoomToLevel 5 2 = 2 := by
  have h := zoomToLevel_clamps_for_positive_maxZoom 5 2 (by decide)
  rw [h]
  norm_num

/-! Part 2: getAdjustedOffset (source lines 1731-1745). -/

/-- Model of `getAdjustedOffset(offset, renderedKey)`. The JS float `factor = 2^(level - renderedLevel)` is modelled exactly as a rational integer power, so `Math.floor(offsetX / factor)` is the rational floor. `descendantFactor` is `2^(renderedLevel - level)` when the substitute is a descendant, else 1. -/
def getAdjustedOffset (offset : Int × Int × Nat) (renderedKey : Nat × Nat × Nat) : Int × Int :=
  let rx := renderedKey.1
  let ry := renderedKey.2.1
  let renderedLevel := renderedKey.2.2
  let ox := offset.1
  let oy := offset.2.1
  let level := offset.2.2
  let factor : Rat := 2 ^ ((level : Int) - (renderedLevel : Int))
  let descendantFactor : Int :=
    if level < renderedLevel then 2 ^ (renderedLevel - level) else 1
  (⌊(ox : Rat) / factor⌋ + (rx : Int) % descendantFactor,
   ⌊(oy : Rat) / factor⌋ + (ry : Int) % descendantFactor)

/-- C4: `getAdjustedOffset` divides the offset componentwise by `2^(level - renderedLevel)` with floor semantics (Int division below is floor division since the divisor is positive), and exactly when `renderedLevel > level` it additionally adds `renderedX mod 2^(renderedLevel - level)` resp. `renderedY mod 2^(renderedLevel - level)`; in particular `getAdjustedOffset [5,7,3] "0,0,1" = [1,1]`. -/
theorem getAdjustedOffset_characterization :
    (∀ (ox oy : Int) (level rx ry renderedLevel : Nat),
      getAdjustedOffset (ox, oy, level) (rx, ry, renderedLevel) =
        if renderedLevel ≤ level then
          (ox / 2 ^ (level - renderedLevel), oy / 2 ^ (level - renderedLevel))
        else
          (ox * 2 ^ (renderedLevel - level) + (rx : Int) % 2 ^ (renderedLevel - level),
           oy * 2 ^ (renderedLevel - level) + (ry : Int) % 2 ^ (renderedLevel - level)))
    ∧ getAdjustedOffset (5, 7, 3) (0, 0, 1) = (1, 1) := by
  constructor
  · intro ox oy level rx ry renderedLevel
    by_cases h : renderedLevel ≤ level
    · rw [if_pos h]
      have hfac : (2 : Rat) ^ ((level : Int) - (renderedLevel : Int))
          = ((2 ^ (level - renderedLevel) : Nat) : Rat) := by
        have hcast : ((level : Int) - (renderedLevel : Int))
            = ((level - renderedLevel : Nat) : Int) := by omega
        rw [hcast, zpow_natCast]
        push_cast
        ring
      simp only [getAdjustedOffset, if_neg (by omega : ¬ level < renderedLevel)]
      rw [hfac, Rat.floor_intCast_div_natCast, Rat.floor_intCast_div_natCast]
      simp [Int.emod_one]
    · rw [if_neg h]
      have hlt : level < renderedLevel := by omega
      have hcast : ((level : Int) - (renderedLevel : Int))
          = -((renderedLevel - level : Nat) : Int) := by omega
      have hfac : (2 : Rat) ^ ((level : Int) - (renderedLevel : Int))
          = (((2 : Rat) ^ (renderedLevel - level)))⁻¹ := by
        rw [hcast, zpow_neg, zpow_natCast]
      simp only [getAdjustedOffset, if_pos hlt]
      rw [hfac, div_inv_eq_mul, div_inv_eq_mul]
      have hox : (ox : Rat) * (2 : Rat) ^ (renderedLevel - level)
          = ((ox * 2 ^ (renderedLevel - level) : Int) : Rat) := by
        push_cast
        ring
      have hoy : (oy : Rat) * (2 : Rat) ^ (renderedLevel - level)
          = ((oy * 2 ^ (renderedLevel - level) : Int) : Rat) := by
        push_cast
        ring
      rw [hox, hoy, Int.floor_intCast, Int.floor_intCast]
  · simp only [getAdjustedOffset]
    norm_num

/-! Part 3: pointToCamera / pointToTile (source lines 1479-1514). -/

/-- Model of the JS truncation used by the `%` operator: round toward zero. -/
def jsTrunc (q : Rat) : Int := if 0 ≤ q then ⌊q⌋ else ⌈q⌉

/-- Model of the JS `%` remainder operator on numbers: `a % m = a - m * trunc(a / m)`; the result takes the sign of `a`. -/
def jsMod (a m : Rat) : Rat := a - m * (jsTrunc (a / m) : Rat)

/-- Model of `x = x % z2; if (x < 0) x = x + z2`, shared by `pointToCamera` and the equirectangular branch of `pointToTile`. -/
def wrapX (x0 z2 : Rat) : Rat :=
  let x1 := jsMod x0 z2
  if x1 < 0 then x1 + z2 else x1

/-- Model of `y = Math.max(Math.min(y, z2), 0)`. -/
def clampY (y0 z2 : Rat) : Rat := max (min y0 z2) 0

/-- Two supported projections. -/
inductive Projection where
  | mercator
  | equirectangular
deriving DecidableEq

/-- Model of `pointToCamera(lon, lat, z)`. The transcendental Mercator term `0.25 * Math.log((1 + sin) / (1 - sin)) / Math.PI` is abstracted as the parameter `mercArg`; the theorems quantify over all its values (its actual values, including the infinities clamped at the poles, are covered since `clampY` bounds every input). -/
def pointToCamera (lon mercArg : Rat) (z : Nat) : Rat × Rat × Nat :=
  let z2 : Rat := 2 ^ z
  let x := wrapX (z2 * (lon / 360 + 1 / 2)) z2
  let y := clampY (z2 * (1 / 2 - mercArg)) z2
  (x, y, z)

/-- Model of `pointToTile(lon, lat, z, projection, order)`: Mercator goes through `pointToCamera`; equirectangular wraps x modulo 2^z and clamps y; finally `tile[0] = floor(x)` and `tile[1] = min(floor(y), 2^z - 1)`. -/
def pointToTile (lon lat mercArg : Rat) (z : Nat) (proj : Projection) (orderY : Int) :
    Int × Int × Nat :=
  let z2 : Rat := 2 ^ z
  let xy : Rat × Rat :=
    match proj with
    | Projection.mercator =>
        ((pointToCamera lon mercArg z).1, (pointToCamera lon mercArg z).2.1)
    | Projection.equirectangular =>
        (wrapX (z2 * (lon / 360 + 1 / 2)) z2,
         clampY (z2 * ((orderY : Rat) * (-1) * lat / 180 + 1 / 2)) z2)
  (⌊xy.1⌋, min ⌊xy.2⌋ (2 ^ z - 1), z)

/-- Wrapping into `[0, m)`: the result of `a % m` followed by the negative fix lies in `[0, m)` for positive `m`. -/
theorem wrapX_bounds (a m : Rat) (hm : 0 < m) : 0 ≤ wrapX a m ∧ wrapX a m < m := by
  have hm0 : m ≠ 0 := ne_of_gt hm
  have ha : a = m * (a / m) := by
    field_simp
  by_cases h0 : 0 ≤ a / m
  · have htr : jsTrunc (a / m) = ⌊a / m⌋ := by simp [jsTrunc, h0]
    have hfr : jsMod a m = m * Int.fract (a / m) := by
      rw [jsMod, htr, Int.fract]
      rw [mul_sub]
      rw [← ha]
    have h1 : 0 ≤ jsMod a m := by
      rw [hfr]
      exact mul_nonneg (le_of_lt hm) (Int.fract_nonneg _)
    have h2 : jsMod a m < m := by
      rw [hfr]
      calc m * Int.fract (a / m) < m * 1 := by
            exact mul_lt_mul_of_pos_left (Int.fract_lt_one _) hm
        _ = m := mul_one m
    rw [wrapX]
    simp only [if_neg (not_lt.mpr h1)]
    exact ⟨h1, h2⟩
  · have htr : jsTrunc (a / m) = ⌈a / m⌉ := by simp [jsTrunc, h0]
    have hle : jsMod a m ≤ 0 := by
      rw [jsMod, htr]
      have : a / m ≤ (⌈a / m⌉ : Rat) := Int.le_ceil _
      nlinarith
    have hgt : -m < jsMod a m := by
      rw [jsMod, htr]
      have : (⌈a / m⌉ : Rat) < a / m + 1 := Int.ceil_lt_add_one _
      nlinarith
    rw [wrapX]
    by_cases hneg : jsMod a m < 0
    · simp only [if_pos hneg]
      constructor
      · linarith
      · linarith
    · simp only [if_neg hneg]
      constructor
      · linarith
      · linarith

/-- Clamping into `[0, m]`. -/
theorem clampY_bounds (y m : Rat) (hm : 0 ≤ m) : 0 ≤ clampY y m ∧ clampY y m ≤ m := by
  refine ⟨le_max_right _ _, ?_⟩
  rw [clampY]
  rw [max_le_iff]
  exact ⟨min_le_right _ _, hm⟩

/-- Floor of a value in `[0, m)` lies in `[0, m - 1]` over the integers. -/
theorem floor_range_of_bounds (x : Rat) (z : Nat) (h0 : 0 ≤ x) (h1 : x < 2 ^ z) :
    0 ≤ ⌊x⌋ ∧ ⌊x⌋ ≤ 2 ^ z - 1 := by
  constructor
  · exact Int.le_floor.mpr (by exact_mod_cast h0)
  · have : ⌊x⌋ < (2 ^ z : Int) := by
      rw [Int.floor_lt]
      push_cast
      exact h1
    omega

/-- C10: for every finite longitude and latitude (beyond the poles and the antimeridian included, via the abstracted Mercator term), every zoom, both projections and any axis order, `pointToTile` returns x and y in `[0, 2^z - 1]`: x is wrapped modulo 2^z and y is clamped. -/
theorem pointToTile_in_range :
    ∀ (lon lat mercArg : Rat) (z : Nat) (proj : Projection) (orderY : Int),
      0 ≤ (pointToTile lon lat mercArg z proj orderY).1 ∧
      (pointToTile lon lat mercArg z proj orderY).1 ≤ 2 ^ z - 1 ∧
      0 ≤ (pointToTile lon lat mercArg z proj orderY).2.1 ∧
      (pointToTile lon lat mercArg z proj orderY).2.1 ≤ 2 ^ z - 1 := by
  intro lon lat mercArg z proj orderY
  have hz2 : (0 : Rat) < 2 ^ z := by positivity
  have hone : (1 : Int) ≤ 2 ^ z := one_le_pow₀ (by norm_num)
  cases proj
  case mercator =>
    have hx := wrapX_bounds ((2 : Rat) ^ z * (lon / 360 + 1 / 2)) (2 ^ z) hz2
    have hy := clampY_bounds ((2 : Rat) ^ z * (1 / 2 - mercArg)) (2 ^ z) (le_of_lt hz2)
    have hfx := floor_range_of_bounds _ z hx.1 hx.2
    have hfy0 : 0 ≤ ⌊clampY ((2 : Rat) ^ z * (1 / 2 - mercArg)) (2 ^ z)⌋ :=
      Int.le_floor.mpr (by exact_mod_cast hy.1)
    simp only [pointToTile, pointToCamera]
    refine ⟨hfx.1, hfx.2, ?_, ?_⟩
    · exact le_min hfy0 (by omega)
    · exact min_le_right _ _
  case equirectangular =>
    have hx := wrapX_bounds ((2 : Rat) ^ z * (lon / 360 + 1 / 2)) (2 ^ z) hz2
    have hy := clampY_bounds ((2 : Rat) ^ z * ((orderY : Rat) * (-1) * lat / 180 + 1 / 2))
      (2 ^ z) (le_of_lt hz2)
    have hfx := floor_range_of_bounds _ z hx.1 hx.2
    have hfy0 : 0 ≤ ⌊clampY ((2 : Rat) ^ z * ((orderY : Rat) * (-1) * lat / 180 + 1 / 2)) (2 ^ z)⌋ :=
      Int.le_floor.mpr (by exact_mod_cast hy.1)
    simp only [pointToTile]
    refine ⟨hfx.1, hfx.2, ?_, ?_⟩
    · exact le_min hfy0 (by omega)
    · exact min_le_right _ _

/-! Part 4: clip and getSiblings (source lines 1457-1469, 1575-1626). -/

/-- Model of `clip(v, max)`: shift by one world width when out of range, then clamp into `[0, max]`. -/
def clip (v mx : Int) : Int :=
  let result := if v < 0 then v + mx + 1 else if v > mx then v - mx - 1 else v
  min (max result 0) mx

/-- Integer loop range `for (i = a; i <= b; i++)`. -/
def intRange (a b : Int) : List Int :=
  (List.range (b + 1 - a).toNat).map (fun i => a + (i : Int))

/-- Enumeration of candidate offsets `(tileX + dx, tileY + dy, tileZ)` for dx in `[deltaX.1, deltaX.2]` (outer loop) and dy in `[deltaY.1, deltaY.2]` (inner loop). -/
def siblingOffsets (tileX tileY : Int) (tileZ : Nat) (deltaX deltaY : Int × Int) :
    List (Int × Int × Nat) :=
  (intRange deltaX.1 deltaX.2).flatMap (fun x =>
    (intRange deltaY.1 deltaY.2).map (fun y => (tileX + x, tileY + y, tileZ)))

/-- JS-object style append into `accum[key]`: push `v` onto the entry for `k`, creating the entry at the end when absent. -/
def assocAppend {K V : Type} [DecidableEq K] : List (K × List V) → K → V → List (K × List V)
  | [], k, v => [(k, [v])]
  | (k1, vs) :: rest, k, v =>
    if k1 = k then (k1, vs ++ [v]) :: rest else (k1, vs) :: assocAppend rest k v

/-- Lookup of `accum[key]`, empty list when absent. -/
def assocGet {K V : Type} [DecidableEq K] : List (K × List V) → K → List V
  | [], _ => []
  | (k1, vs) :: rest, k => if k1 = k then vs else assocGet rest k

/-- Canonical key of an un-wrapped offset: x and y put through `clip` with `max = 2^z - 1`. -/
def canonicalKey (tileZ : Nat) (o : Int × Int × Nat) : Int × Int × Nat :=
  (clip o.1 (2 ^ tileZ - 1), clip o.2.1 (2 ^ tileZ - 1), tileZ)

/-- Model of the reduce at the end of `getSiblings`: drop offsets whose y is outside `[0, 2^z - 1]` (no vertical wrap), and append each surviving un-wrapped offset to `active[canonicalKey]`. The integer offset ranges `deltaX`, `deltaY` are parameters standing for the values of `getTileOffsets` / `getLatBasedOffsets`, whose real-valued pixel-scale inputs are abstracted; the theorem quantifies over all of them. -/
def getSiblings (tileX tileY : Int) (tileZ : Nat) (deltaX deltaY : Int × Int) :
    List ((Int × Int × Nat) × List (Int × Int × Nat)) :=
  (siblingOffsets tileX tileY tileZ deltaX deltaY).foldl (fun accum offset =>
    if offset.2.1 < 0 ∨ offset.2.1 > 2 ^ tileZ - 1 then accum
    else assocAppend accum (canonicalKey tileZ offset) offset) []

/-- Clip lands in `[0, max]` whenever `max` is non-negative. -/
theorem clip_bounds (v mx : Int) (h : 0 ≤ mx) : 0 ≤ clip v mx ∧ clip v mx ≤ mx := by
  unfold clip
  constructor
  · exact le_min (le_max_right _ _) h
  · exact min_le_right _ _

/-- Reading an assoc list after an append: the appended key gains `v` at the end, all other keys are untouched. -/
theorem assocGet_assocAppend {K V : Type} [DecidableEq K]
    (l : List (K × List V)) (k k2 : K) (v : V) :
    assocGet (assocAppend l k v) k2 =
      if k2 = k then assocGet l k ++ [v] else assocGet l k2 := by
  induction l with
  | nil =>
    simp only [assocAppend, assocGet]
    by_cases h : k = k2
    · subst h
      simp
    · rw [if_neg h, if_neg (fun hh : k2 = k => h hh.symm)]
  | cons hd tl ih =>
    obtain ⟨k1, vs⟩ := hd
    simp only [assocAppend]
    by_cases h1 : k1 = k
    · subst h1
      simp only [if_pos rfl, assocGet]
      by_cases h2 : k1 = k2
      · subst h2
        simp
      · have h2s : ¬ k2 = k1 := fun hh => h2 hh.symm
        simp [h2, h2s]
    · rw [if_neg h1]
      simp only [assocGet]
      by_cases h2 : k1 = k2
      · subst h2
        simp [h1]
      · simp [h1, h2, ih]

/-- Keys after an append: the appended key is added at the end when new. -/
theorem assocAppend_keys {K V : Type} [DecidableEq K]
    (l : List (K × List V)) (k : K) (v : V) :
    (assocAppend l k v).map Prod.fst =
      if k ∈ l.map Prod.fst then l.map Prod.fst else l.map Prod.fst ++ [k] := by
  induction l with
  | nil => simp [assocAppend]
  | cons hd tl ih =>
    obtain ⟨k1, vs⟩ := hd
    by_cases h1 : k1 = k
    · subst h1
      simp [assocAppend]
    · by_cases h2 : k ∈ tl.map Prod.fst
      · simp [assocAppend, h1, ih, h2, Ne.symm h1]
      · simp [assocAppend, h1, ih, h2, Ne.symm h1]

/-- The fold of `getSiblings`, characterized entry-wise: the value at key `k` is exactly the sublist of offsets with y in range whose canonical key is `k`. -/
theorem getSiblings_fold_get (tileZ : Nat) (os : List (Int × Int × Nat))
    (accum : List ((Int × Int × Nat) × List (Int × Int × Nat))) (k : Int × Int × Nat) :
    assocGet (os.foldl (fun accum offset =>
        if offset.2.1 < 0 ∨ offset.2.1 > 2 ^ tileZ - 1 then accum
        else assocAppend accum (canonicalKey tileZ offset) offset) accum) k =
      assocGet accum k ++ os.filter (fun o =>
        decide (0 ≤ o.2.1 ∧ o.2.1 ≤ 2 ^ tileZ - 1 ∧ canonicalKey tileZ o = k)) := by
  induction os generalizing accum with
  | nil => simp
  | cons o os ih =>
    by_cases hdrop : o.2.1 < 0 ∨ o.2.1 > 2 ^ tileZ - 1
    · have hfilt : ¬ (0 ≤ o.2.1 ∧ o.2.1 ≤ 2 ^ tileZ - 1 ∧ canonicalKey tileZ o = k) := by
        intro hc
        rcases hdrop with h | h
        · exact absurd hc.1 (not_le.mpr h)
        · exact absurd hc.2.1 (not_le.mpr h)
      simp only [List.foldl_cons, if_pos hdrop]
      rw [ih]
      congr 1
      rw [List.filter_cons, if_neg (by simp [hfilt])]
    · have hdrop2 : 0 ≤ o.2.1 ∧ o.2.1 ≤ 2 ^ tileZ - 1 := by
        push_neg at hdrop
        exact hdrop
      simp only [List.foldl_cons, if_neg hdrop]
      rw [ih, assocGet_assocAppend]
      by_cases hk : canonicalKey tileZ o = k
      · subst hk
        have hfilt : (0 ≤ o.2.1 ∧ o.2.1 ≤ 2 ^ tileZ - 1 ∧
            canonicalKey tileZ o = canonicalKey tileZ o) :=
          ⟨hdrop2.1, hdrop2.2, rfl⟩
        rw [if_pos rfl, List.filter_cons, if_pos (by simp [hfilt])]
        simp
      · have hfilt : ¬ (0 ≤ o.2.1 ∧ o.2.1 ≤ 2 ^ tileZ - 1 ∧ canonicalKey tileZ o = k) := by
          intro hc
          exact hk hc.2.2
        rw [if_neg (fun h => hk h.symm), List.filter_cons, if_neg (by simp [hfilt])]

/-- Keys of the fold are canonical keys of surviving offsets (or keys already in the accumulator). -/
theorem getSiblings_fold_keys (tileZ : Nat) (os : List (Int × Int × Nat))
    (accum : List ((Int × Int × Nat) × List (Int × Int × Nat))) :
    ∀ k ∈ (os.foldl (fun accum offset =>
        if offset.2.1 < 0 ∨ offset.2.1 > 2 ^ tileZ - 1 then accum
        else assocAppend accum (canonicalKey tileZ offset) offset) accum).map Prod.fst,
      k ∈ accum.map Prod.fst ∨ ∃ o ∈ os, k = canonicalKey tileZ o := by
  induction os generalizing accum with
  | nil =>
    intro k hk
    exact Or.inl hk
  | cons o os ih =>
    intro k hk
    by_cases hdrop : o.2.1 < 0 ∨ o.2.1 > 2 ^ tileZ - 1
    · simp only [List.foldl_cons, if_pos hdrop] at hk
      rcases ih accum k hk with h | ⟨o2, ho2, he⟩
      · exact Or.inl h
      · exact Or.inr ⟨o2, List.mem_cons_of_mem _ ho2, he⟩
    · simp only [List.foldl_cons, if_neg hdrop] at hk
      rcases ih _ k hk with h | ⟨o2, ho2, he⟩
      · rw [assocAppend_keys] at h
        by_cases hmem : canonicalKey tileZ o ∈ accum.map Prod.fst
        · rw [if_pos hmem] at h
          exact Or.inl h
        · rw [if_neg hmem] at h
          rcases List.mem_append.mp h with h2 | h2
          · exact Or.inl h2
          · simp at h2
            exact Or.inr ⟨o, List.mem_cons_self _ _, h2⟩
      · exact Or.inr ⟨o2, List.mem_cons_of_mem _ ho2, he⟩

/-- C1: every canonical key in the `active` map built by `getSiblings` has x and y in `[0, 2^z)` and level z; moreover the list stored at any key `k` consists exactly of the enumerated un-wrapped offsets whose y lies in `[0, 2^z - 1]` (offsets with out-of-range y are dropped, there is no vertical wrap) and whose x wraps to `k` through `clip`. -/
theorem getSiblings_active_keys_in_range :
    ∀ (tileX tileY : Int) (tileZ : Nat) (deltaX deltaY : Int × Int),
      (∀ k ∈ (getSiblings tileX tileY tileZ deltaX deltaY).map Prod.fst,
        0 ≤ k.1 ∧ k.1 < 2 ^ tileZ ∧ 0 ≤ k.2.1 ∧ k.2.1 < 2 ^ tileZ ∧ k.2.2 = tileZ)
      ∧ (∀ k, assocGet (getSiblings tileX tileY tileZ deltaX deltaY) k =
          (siblingOffsets tileX tileY tileZ deltaX deltaY).filter (fun o =>
            decide (0 ≤ o.2.1 ∧ o.2.1 ≤ 2 ^ tileZ - 1 ∧ canonicalKey tileZ o = k))) := by
  intro tileX tileY tileZ deltaX deltaY
  have hmx : (0 : Int) ≤ 2 ^ tileZ - 1 := by
    have : (1 : Int) ≤ 2 ^ tileZ := one_le_pow₀ (by norm_num)
    omega
  constructor
  · intro k hk
    rcases getSiblings_fold_keys tileZ _ [] k hk with h | ⟨o, _, he⟩
    · simp at h
    · subst he
      have hx := clip_bounds o.1 (2 ^ tileZ - 1) hmx
      have hy := clip_bounds o.2.1 (2 ^ tileZ - 1) hmx
      simp only [canonicalKey]
      refine ⟨hx.1, by omega, hy.1, by omega, trivial⟩
  · intro k
    have h := getSiblings_fold_get tileZ (siblingOffsets tileX tileY tileZ deltaX deltaY) [] k
    rw [getSiblings, h]
    simp [assocGet]

/-- Witness for C1 at tile (0,0,1) with deltaX = [0,1], deltaY = [-1,0]: the key (0,0,1) is produced and holds exactly the offset (0,0,1); the candidate (0,-1,1) was dropped. -/
theorem getSiblings_active_keys_witness :
    ((0 : Int), (0 : Int), (1 : Nat)) ∈ (getSiblings 0 0 1 (0, 1) (-1, 0)).map Prod.fst ∧
    (0 ≤ ((0 : Int), (0 : Int), (1 : Nat)).1 ∧ ((0 : Int), (0 : Int), (1 : Nat)).1 < 2 ^ 1 ∧
      0 ≤ ((0 : Int), (0 : Int), (1 : Nat)).2.1 ∧ ((0 : Int), (0 : Int), (1 : Nat)).2.1 < 2 ^ 1 ∧
      ((0 : Int), (0 : Int), (1 : Nat)).2.2 = 1) ∧
    assocGet (getSiblings 0 0 1 (0, 1) (-1, 0)) (0, 0, 1) =
      (siblingOffsets 0 0 1 (0, 1) (-1, 0)).filter (fun o =>
        decide (0 ≤ o.2.1 ∧ o.2.1 ≤ 2 ^ 1 - 1 ∧ canonicalKey 1 o = (0, 0, 1))) := by
  refine ⟨by decide, ?_, ?_⟩
  · exact (getSiblings_active_keys_in_range 0 0 1 (0, 1) (-1, 0)).1 (0, 0, 1) (by decide)
  · exact (getSiblings_active_keys_in_range 0 0 1 (0, 1) (-1, 0)).2 (0, 0, 1)

/-! Part 5: LOD fallback policy (source lines 1627-1697). -/

/-- Model of `getAncestorToRender`: walk from (x, y, z) toward (x/2, y/2, z-1) down to z = 0, returning the first key whose tile reports a populated buffer. The engine allocates a Tile for every key, so the tile map is modelled as a total function to the `isBufferPopulated` flag. -/
def getAncestorToRender (tiles : Nat × Nat × Nat → Bool) :
    Nat → Nat → Nat → Option (Nat × Nat × Nat)
  | x, y, 0 => if tiles (x, y, 0) then some (x, y, 0) else none
  | x, y, z + 1 =>
    if tiles (x, y, z + 1) then some (x, y, z + 1)
    else getAncestorToRender tiles (x / 2) (y / 2) z

/-- Keys enumerated at one level of the descendant search: (x + dx, y + dy, z) for dx, dy in [0, delta], dx in the outer loop. -/
def levelKeys (x y z delta : Nat) : List (Nat × Nat × Nat) :=
  (List.range (delta + 1)).flatMap (fun dx =>
    (List.range (delta + 1)).map (fun dy => (x + dx, y + dy, z)))

/-- Coverage of one level: populated keys over total keys, the exact rational value of the JS quotient. -/
def levelCoverage (tiles : Nat × Nat × Nat → Bool) (x y z delta : Nat) : Rat :=
  (((levelKeys x y z delta).filter tiles).length : Rat) /
    ((levelKeys x y z delta).length : Rat)

/-- Loop of `getDescendantsToRender`, with fuel counting the levels left up to maxZoom. The `coverage` accumulator is compared against but never updated, exactly as in the source (`coverage` stays 0 on every iteration, so any level with at least one populated key overwrites `descendants`). -/
def descLoop (tiles : Nat × Nat × Nat → Bool) :
    Nat → Nat → Nat → Nat → Nat → Rat → List (Nat × Nat × Nat) → List (Nat × Nat × Nat)
  | 0, _, _, _, _, _, descendants => descendants
  | fuel + 1, x, y, z, delta, coverage, descendants =>
    descLoop tiles fuel (x * 2) (y * 2) (z + 1) (delta + 1) coverage
      (if levelCoverage tiles x y z delta > coverage then levelKeys x y z delta
       else descendants)

/-- Model of `getDescendantsToRender`. -/
def getDescendantsToRender (tiles : Nat × Nat × Nat → Bool) (x y z maxZoom : Nat) :
    List (Nat × Nat × Nat) :=
  descLoop tiles (maxZoom + 1 - z) x y z 0 0 []

/-- Model of `getKeysToRender`: first populated ancestor, else the descendant set, else the target itself. -/
def getKeysToRender (targetKey : Nat × Nat × Nat) (tiles : Nat × Nat × Nat → Bool)
    (maxZoom : Nat) : List (Nat × Nat × Nat) :=
  match getAncestorToRender tiles targetKey.1 targetKey.2.1 targetKey.2.2 with
  | some ancestor => [ancestor]
  | none =>
    let descendants := getDescendantsToRender tiles targetKey.1 targetKey.2.1 targetKey.2.2 maxZoom
    if descendants.isEmpty then [targetKey] else descendants

/-- anc lies on the ancestor path of target (target itself included). -/
def isAncestorOrSelf (anc target : Nat × Nat × Nat) : Prop :=
  anc.2.2 ≤ target.2.2 ∧
  anc.1 = target.1 / 2 ^ (target.2.2 - anc.2.2) ∧
  anc.2.1 = target.2.1 / 2 ^ (target.2.2 - anc.2.2)

/-- desc is a strict descendant of target. -/
def isStrictDescendant (desc target : Nat × Nat × Nat) : Prop :=
  target.2.2 < desc.2.2 ∧
  desc.1 / 2 ^ (desc.2.2 - target.2.2) = target.1 ∧
  desc.2.1 / 2 ^ (desc.2.2 - target.2.2) = target.2.1

/-- A populated key is returned immediately by the ancestor walk. -/
theorem getAncestorToRender_self (tiles : Nat × Nat × Nat → Bool) (x y z : Nat)
    (h : tiles (x, y, z) = true) : getAncestorToRender tiles x y z = some (x, y, z) := by
  cases z <;> simp [getAncestorToRender, h]

/-- When every key on the ancestor path is unpopulated, the walk returns none. -/
theorem getAncestorToRender_none (tiles : Nat × Nat × Nat → Bool) :
    ∀ (z x y : Nat), (∀ j, j ≤ z → tiles (x / 2 ^ j, y / 2 ^ j, z - j) = false) →
      getAncestorToRender tiles x y z = none := by
  intro z
  induction z with
  | zero =>
    intro x y h
    have h0 := h 0 (le_refl 0)
    simp only [pow_zero, Nat.div_one, Nat.sub_zero] at h0
    simp [getAncestorToRender, h0]
  | succ n ih =>
    intro x y h
    have h0 := h 0 (Nat.zero_le _)
    simp only [pow_zero, Nat.div_one, Nat.sub_zero] at h0
    simp only [getAncestorToRender, h0, Bool.false_eq_true, if_false]
    apply ih
    intro j hj
    have hx : x / 2 / 2 ^ j = x / 2 ^ (j + 1) := by
      rw [Nat.div_div_eq_div_mul]
      congr 1
      rw [pow_succ]
      ring
    have hy : y / 2 / 2 ^ j = y / 2 ^ (j + 1) := by
      rw [Nat.div_div_eq_div_mul]
      congr 1
      rw [pow_succ]
      ring
    have hz : n - j = n + 1 - (j + 1) := by omega
    rw [hx, hy, hz]
    exact h (j + 1) (by omega)

/-- Nonempty populated sublist means positive coverage. -/
theorem levelCoverage_pos (tiles : Nat × Nat × Nat → Bool) (x y z delta : Nat)
    (h : (levelKeys x y z delta).filter tiles ≠ []) :
    0 < levelCoverage tiles x y z delta := by
  rw [levelCoverage]
  apply div_pos
  · have hl : 0 < ((levelKeys x y z delta).filter tiles).length :=
      List.length_pos.mpr h
    exact_mod_cast hl
  · have hmem : (x + 0, y + 0, z) ∈ levelKeys x y z delta := by
      rw [levelKeys]
      refine List.mem_flatMap.mpr ⟨0, List.mem_range.mpr (by omega), ?_⟩
      exact List.mem_map.mpr ⟨0, List.mem_range.mpr (by omega), rfl⟩
    have hl : 0 < (levelKeys x y z delta).length :=
      List.length_pos.mpr (List.ne_nil_of_mem hmem)
    exact_mod_cast hl

/-- Empty populated sublist means zero coverage. -/
theorem levelCoverage_zero (tiles : Nat × Nat × Nat → Bool) (x y z delta : Nat)
    (h : (levelKeys x y z delta).filter tiles = []) :
    levelCoverage tiles x y z delta = 0 := by
  rw [levelCoverage, h]
  simp

/-- When every remaining level has zero coverage the loop keeps its accumulator. -/
theorem descLoop_all_zero (tiles : Nat × Nat × Nat → Bool) :
    ∀ (fuel x y z delta : Nat) (ds : List (Nat × Nat × Nat)),
      (∀ j, j < fuel →
        (levelKeys (x * 2 ^ j) (y * 2 ^ j) (z + j) (delta + j)).filter tiles = []) →
      descLoop tiles fuel x y z delta 0 ds = ds := by
  intro fuel
  induction fuel with
  | zero =>
    intro x y z delta ds _
    rfl
  | succ n ih =>
    intro x y z delta ds h
    have h0 := h 0 (by omega)
    simp only [pow_zero, Nat.mul_one, Nat.add_zero] at h0
    have hcov : levelCoverage tiles x y z delta = 0 := levelCoverage_zero tiles x y z delta h0
    simp only [descLoop, hcov, gt_iff_lt, lt_irrefl, if_false]
    apply ih
    intro j hj
    have hx : x * 2 * 2 ^ j = x * 2 ^ (j + 1) := by
      rw [pow_succ]
      ring
    have hy : y * 2 * 2 ^ j = y * 2 ^ (j + 1) := by
      rw [pow_succ]
      ring
    have hz : z + 1 + j = z + (j + 1) := by omega
    have hd : delta + 1 + j = delta + (j + 1) := by omega
    rw [hx, hy, hz, hd]
    exact h (j + 1) (by omega)

/-- The loop returns the keys of the last level with positive coverage (the `coverage` accumulator never changes, so every positive level overwrites `descendants`). -/
theorem descLoop_last_positive (tiles : Nat × Nat × Nat → Bool) :
    ∀ (fuel x y z delta j0 : Nat) (ds : List (Nat × Nat × Nat)),
      j0 < fuel →
      (levelKeys (x * 2 ^ j0) (y * 2 ^ j0) (z + j0) (delta + j0)).filter tiles ≠ [] →
      (∀ j, j0 < j → j < fuel →
        (levelKeys (x * 2 ^ j) (y * 2 ^ j) (z + j) (delta + j)).filter tiles = []) →
      descLoop tiles fuel x y z delta 0 ds =
        levelKeys (x * 2 ^ j0) (y * 2 ^ j0) (z + j0) (delta + j0) := by
  intro fuel
  induction fuel with
  | zero =>
    intro x y z delta j0 ds hj0
    omega
  | succ n ih =>
    intro x y z delta j0 ds hj0 hpos hzero
    cases j0 with
    | zero =>
      simp only [pow_zero, Nat.mul_one, Nat.add_zero] at hpos ⊢
      have hcov : 0 < levelCoverage tiles x y z delta := levelCoverage_pos tiles x y z delta hpos
      simp only [descLoop, gt_iff_lt, hcov, if_true]
      apply descLoop_all_zero
      intro j hj
      have hx : x * 2 * 2 ^ j = x * 2 ^ (j + 1) := by
        rw [pow_succ]
        ring
      have hy : y * 2 * 2 ^ j = y * 2 ^ (j + 1) := by
        rw [pow_succ]
        ring
      have hz : z + 1 + j = z + (j + 1) := by omega
      have hd : delta + 1 + j = delta + (j + 1) := by omega
      rw [hx, hy, hz, hd]
      exact hzero (j + 1) (by omega) (by omega)
    | succ j1 =>
      simp only [descLoop]
      have hx : x * 2 * 2 ^ j1 = x * 2 ^ (j1 + 1) := by
        rw [pow_succ]
        ring
      have hy : y * 2 * 2 ^ j1 = y * 2 ^ (j1 + 1) := by
        rw [pow_succ]
        ring
      have hz : z + 1 + j1 = z + (j1 + 1) := by omega
      have hd : delta + 1 + j1 = delta + (j1 + 1) := by omega
      have hres := ih (x * 2) (y * 2) (z + 1) (delta + 1) j1
        (if levelCoverage tiles x y z delta > 0 then levelKeys x y z delta else ds)
        (by omega)
        (by rw [hx, hy, hz, hd]; exact hpos)
        (by
          intro j hja hjb
          have hx2 : x * 2 * 2 ^ j = x * 2 ^ (j + 1) := by
            rw [pow_succ]
            ring
          have hy2 : y * 2 * 2 ^ j = y * 2 ^ (j + 1) := by
            rw [pow_succ]
            ring
          have hz2 : z + 1 + j = z + (j + 1) := by omega
          have hd2 : delta + 1 + j = delta + (j + 1) := by omega
          rw [hx2, hy2, hz2, hd2]
          exact hzero (j + 1) (by omega) (by omega))
      rw [hres, hx, hy, hz, hd]

/-- C2: if a tile's own buffer is unpopulated but its parent's is populated, `getKeysToRender` returns exactly the parent key; and if no ancestor (the tile itself included) and no descendant is populated, it returns exactly the target key. -/
theorem getKeysToRender_parent_and_fallback :
    ∀ (tiles : Nat × Nat × Nat → Bool) (x y z maxZoom : Nat),
      (1 ≤ z → tiles (x, y, z) = false → tiles (x / 2, y / 2, z - 1) = true →
        getKeysToRender (x, y, z) tiles maxZoom = [(x / 2, y / 2, z - 1)])
      ∧ ((∀ k, isAncestorOrSelf k (x, y, z) ∨ isStrictDescendant k (x, y, z) →
            tiles k = false) →
        getKeysToRender (x, y, z) tiles maxZoom = [(x, y, z)]) := by
  intro tiles x y z maxZoom
  constructor
  · intro hz hself hparent
    obtain ⟨n, rfl⟩ : ∃ n, z = n + 1 := ⟨z - 1, by omega⟩
    have hparent2 : tiles (x / 2, y / 2, n) = true := by
      have : n + 1 - 1 = n := by omega
      rw [this] at hparent
      exact hparent
    have hanc : getAncestorToRender tiles x y (n + 1) = some (x / 2, y / 2, n) := by
      simp only [getAncestorToRender, hself, Bool.false_eq_true, if_false]
      exact getAncestorToRender_self tiles (x / 2) (y / 2) n hparent2
    simp only [getKeysToRender, hanc]
    have : n + 1 - 1 = n := by omega
    rw [this]
  · intro hall
    have hanc : getAncestorToRender tiles x y z = none := by
      apply getAncestorToRender_none
      intro j hj
      apply hall
      left
      rw [isAncestorOrSelf]
      dsimp only
      refine ⟨by omega, ?_, ?_⟩
      · have : z - (z - j) = j := by omega
        rw [this]
      · have : z - (z - j) = j := by omega
        rw [this]
    have hdesc : getDescendantsToRender tiles x y z maxZoom = [] := by
      rw [getDescendantsToRender]
      apply descLoop_all_zero
      intro j hj
      rw [List.filter_eq_nil_iff]
      intro k hk
      rw [levelKeys] at hk
      rcases List.mem_flatMap.mp hk with ⟨dx, hdx, hk2⟩
      rcases List.mem_map.mp hk2 with ⟨dy, hdy, hk3⟩
      rw [List.mem_range] at hdx hdy
      subst hk3
      simp only [Nat.zero_add] at hdx hdy
      rw [Bool.not_eq_true]
      apply hall
      cases Nat.eq_zero_or_pos j with
      | inl hj0 =>
        subst hj0
        left
        rw [isAncestorOrSelf]
        have hdx0 : dx = 0 := by omega
        have hdy0 : dy = 0 := by omega
        subst hdx0
        subst hdy0
        simp
      | inr hjpos =>
        right
        rw [isStrictDescendant]
        dsimp only
        have hdxlt : dx < 2 ^ j := lt_of_le_of_lt (by omega) (Nat.lt_two_pow j)
        have hdylt : dy < 2 ^ j := lt_of_le_of_lt (by omega) (Nat.lt_two_pow j)
        have hsub : z + j - z = j := by omega
        have hpow : 0 < 2 ^ j := Nat.pos_pow_of_pos j (by omega)
        refine ⟨by omega, ?_, ?_⟩
        · rw [hsub]
          rw [show x * 2 ^ j + dx = dx + 2 ^ j * x from by ring]
          rw [Nat.add_mul_div_left _ _ hpow]
          rw [Nat.div_eq_of_lt hdxlt]
          omega
        · rw [hsub]
          rw [show y * 2 ^ j + dy = dy + 2 ^ j * y from by ring]
          rw [Nat.add_mul_div_left _ _ hpow]
          rw [Nat.div_eq_of_lt hdylt]
          omega
    simp [getKeysToRender, hanc, hdesc]

/-- Tile map for the C2 witness, first part: only the key (0,0,1) is populated. -/
def parentTiles (k : Nat × Nat × Nat) : Bool := decide (k = (0, 0, 1))

/-- Tile map with nothing populated, for the C2 witness, second part. -/
def emptyTiles (_ : Nat × Nat × Nat) : Bool := false

/-- Witness for C2: for target (0,0,2) with only the parent (0,0,1) populated the result is [(0,0,1)]; for target (1,1,1) over an empty cache the result is [(1,1,1)]. -/
theorem getKeysToRender_witness :
    getKeysToRender (0, 0, 2) parentTiles 3 = [(0, 0, 1)] ∧
    getKeysToRender (1, 1, 1) emptyTiles 2 = [(1, 1, 1)] := by
  constructor
  · exact (getKeysToRender_parent_and_fallback parentTiles 0 0 2 3).1
      (by decide) (by decide) (by decide)
  · exact (getKeysToRender_parent_and_fallback emptyTiles 1 1 1 2).2
      (fun k _ => rfl)

/-- Tile map for C3: at level 1 three of four children of (0,0,0) are populated (coverage 3/4), at level 2 only (0,0,2) is populated (coverage 1/9). -/
def sampleTiles (k : Nat × Nat × Nat) : Bool :=
  decide (k = (0, 0, 1) ∨ k = (0, 1, 1) ∨ k = (1, 0, 1) ∨ k = (0, 0, 2))

/-- C3, counterexample: from target (0,0,0) with maxZoom 2, level 1 has the strictly greatest coverage (3/4 against 1/9), yet `getDescendantsToRender` returns the nine level-2 keys: the `coverage` variable is never updated, so the comparison `currentCoverage > coverage` is against 0 and the deepest level with any populated key wins. -/
theorem getDescendantsToRender_counterexample :
    getDescendantsToRender sampleTiles 0 0 0 2 = levelKeys 0 0 2 2 ∧
    levelCoverage sampleTiles 0 0 1 1 = 3 / 4 ∧
    levelCoverage sampleTiles 0 0 2 2 = 1 / 9 ∧
    ((1 : Rat) / 9 < 3 / 4) ∧
    levelKeys 0 0 2 2 ≠ levelKeys 0 0 1 1 := by
  refine ⟨?_, ?_, ?_, by norm_num, by decide⟩
  · have h := descLoop_last_positive sampleTiles 3 0 0 0 0 2 [] (by omega)
      (by decide)
      (by
        intro j hja hjb
        omega)
    simpa [getDescendantsToRender] using h
  · have hf : (levelKeys 0 0 1 1).filter sampleTiles = [(0, 0, 1), (0, 1, 1), (1, 0, 1)] := by
      decide
    have hl : (levelKeys 0 0 1 1).length = 4 := by decide
    rw [levelCoverage, hf, hl]
    norm_num
  · have hf : (levelKeys 0 0 2 2).filter sampleTiles = [(0, 0, 2)] := by decide
    have hl : (levelKeys 0 0 2 2).length = 9 := by decide
    rw [levelCoverage, hf, hl]
    norm_num

/-- C3, amended: at each level the descendant search enumerates exactly the (delta+1)^2 keys rooted at (x 2^delta, y 2^delta, z + delta) and computes coverage = populated/total; but because `coverage` is never updated, the returned keys are those of the deepest enumerated level whose coverage is positive (empty when no enumerated key is populated), not the level of strictly greatest coverage. -/
theorem getDescendantsToRender_last_positive :
    (∀ (tiles : Nat × Nat × Nat → Bool) (x y z maxZoom d : Nat),
      z + d ≤ maxZoom →
      (levelKeys (x * 2 ^ d) (y * 2 ^ d) (z + d) d).filter tiles ≠ [] →
      (∀ d2, d < d2 → z + d2 ≤ maxZoom →
        (levelKeys (x * 2 ^ d2) (y * 2 ^ d2) (z + d2) d2).filter tiles = []) →
      getDescendantsToRender tiles x y z maxZoom =
        levelKeys (x * 2 ^ d) (y * 2 ^ d) (z + d) d)
    ∧ (∀ (tiles : Nat × Nat × Nat → Bool) (x y z maxZoom : Nat),
      (∀ d2, z + d2 ≤ maxZoom →
        (levelKeys (x * 2 ^ d2) (y * 2 ^ d2) (z + d2) d2).filter tiles = []) →
      getDescendantsToRender tiles x y z maxZoom = []) := by
  constructor
  · intro tiles x y z maxZoom d hd hpos hzero
    rw [getDescendantsToRender]
    have h := descLoop_last_positive tiles (maxZoom + 1 - z) x y z 0 d [] (by omega)
      (by simpa using hpos)
      (by
        intro j hja hjb
        have := hzero j hja (by omega)
        simpa using this)
    simpa using h
  · intro tiles x y z maxZoom hzero
    rw [getDescendantsToRender]
    apply descLoop_all_zero
    intro j hj
    have := hzero j (by omega)
    simpa using this

/-- Witness for the amended C3 theorem on `sampleTiles`: the deepest positive level is delta = 2, so the nine level-2 keys are returned; and the empty cache yields no descendants. -/
theorem getDescendantsToRender_last_positive_witness :
    getDescendantsToRender sampleTiles 0 0 0 2 =
      levelKeys (0 * 2 ^ 2) (0 * 2 ^ 2) (0 + 2) 2 ∧
    getDescendantsToRender emptyTiles 0 0 0 2 = [] := by
  constructor
  · exact getDescendantsToRender_last_positive.1 sampleTiles 0 0 0 2 2 (by omega)
      (by decide)
      (fun d2 h1 h2 => absurd h2 (by omega))
  · exact getDescendantsToRender_last_positive.2 emptyTiles 0 0 0 2
      (fun d2 _ => by
        rw [List.filter_eq_nil_iff]
        intro k _
        simp [emptyTiles])

/-! Part 6: selectors and the selector hash (source lines 1900-1902). -/

/-- A selector value: a string or a number (numbers are modelled as integers; only their printed form matters for band naming and hashing). -/
inductive SelVal where
  | str (s : String)
  | num (n : Int)
deriving DecidableEq

/-- Printed form of a selector value, as JS string coercion produces it. -/
def printVal : SelVal → String
  | SelVal.str s => s
  | SelVal.num n => toString n

/-- A selector entry: a scalar or a list of values. -/
inductive SelEntry where
  | scalar (v : SelVal)
  | list (vs : List SelVal)
deriving DecidableEq

/-- A selector: ordered mapping from dimension name to entry (a JS object in insertion order, keys unique). -/
abbrev Selector := List (String × SelEntry)

/-- Comma-joined list of strings. -/
def joinComma : List String → String
  | [] => ""
  | [s] => s
  | s :: rest => s ++ "," ++ joinComma rest

/-- JSON rendering of a selector value. -/
def jsonOfVal : SelVal → String
  | SelVal.str s => "\"" ++ s ++ "\""
  | SelVal.num n => toString n

/-- JSON rendering of a selector entry. -/
def jsonOfEntry : SelEntry → String
  | SelEntry.scalar v => jsonOfVal v
  | SelEntry.list vs => "[" ++ joinComma (vs.map jsonOfVal) ++ "]"

/-- Model of `getSelectorHash(selector) = JSON.stringify(selector)`. -/
def getSelectorHash (selector : Selector) : String :=
  "\x7b" ++
    joinComma (selector.map (fun kv => "\"" ++ kv.1 ++ "\":" ++ jsonOfEntry kv.2)) ++
    "\x7d"

/-! Part 7: selector-hash safety of buffer population (source lines 2056-2068, 2901-2948, 3087-3092). -/

/-- GPU-buffer state of one tile: the selector whose slices the buffers currently hold, and the `bufferCache` hash. -/
structure TileBufferState where
  bufferData : Option Selector
  bufferCache : Option String
deriving DecidableEq

/-- Engine state relevant to selector-hash safety: the current selector and one tile. -/
structure EngineSelState where
  selector : Selector
  tile : TileBufferState
deriving DecidableEq

/-- Model of `populateBuffersSync(selector)`: slices the staged chunks for `selector` into the GPU buffers and sets `bufferCache = getSelectorHash(selector)`, both from the same argument. -/
def populateBuffersSync (s : Selector) (_ : TileBufferState) : TileBufferState :=
  { bufferData := some s, bufferCache := some (getSelectorHash s) }

/-- Events that can interleave with an in-flight buffer population. `updateSelector` overwrites the engine selector; `resolveChunksLoaded h` is the continuation attached by `updateCamera` when the tile was already loading its chunks (it re-checks the captured hash `h` against the current selector before populating, otherwise discards); `resolvePopulate s` is the continuation inside `populateBuffers(chunks, selector)`, which populates with its captured selector unconditionally. -/
inductive SelEvent where
  | updateSelector (s : Selector)
  | resolveChunksLoaded (initialHash : String)
  | resolvePopulate (s : Selector)

/-- One engine step per event. -/
def selStep (st : EngineSelState) : SelEvent → EngineSelState
  | SelEvent.updateSelector s => { st with selector := s }
  | SelEvent.resolveChunksLoaded h =>
    if h = getSelectorHash st.selector then
      { st with tile := populateBuffersSync st.selector st.tile }
    else st
  | SelEvent.resolvePopulate s => { st with tile := populateBuffersSync s st.tile }

/-- Execution of an event list. -/
def runSel (st : EngineSelState) : List SelEvent → EngineSelState
  | [] => st
  | e :: evs => runSel (selStep st e) evs

/-- The buffers and the cache always describe the same selector. -/
def selectorConsistent (st : EngineSelState) : Prop :=
  ∀ s, st.tile.bufferData = some s → st.tile.bufferCache = some (getSelectorHash s)

/-- Each step preserves buffer/cache consistency. -/
theorem selStep_preserves_consistent (st : EngineSelState) (e : SelEvent)
    (h : selectorConsistent st) : selectorConsistent (selStep st e) := by
  cases e with
  | updateSelector s =>
    intro s2 hs
    exact h s2 hs
  | resolveChunksLoaded hh =>
    by_cases hc : hh = getSelectorHash st.selector
    · intro s2 hs
      simp only [selStep, if_pos hc, populateBuffersSync] at hs ⊢
      rw [Option.some_inj] at hs
      rw [hs]
    · intro s2 hs
      simp only [selStep, if_neg hc] at hs ⊢
      exact h s2 hs
  | resolvePopulate s =>
    intro s2 hs
    simp only [selStep, populateBuffersSync] at hs ⊢
    rw [Option.some_inj] at hs
    rw [hs]

/-- Consistency is preserved along any execution. -/
theorem runSel_preserves_consistent (st : EngineSelState) (evs : List SelEvent)
    (h : selectorConsistent st) : selectorConsistent (runSel st evs) := by
  induction evs generalizing st with
  | nil => exact h
  | cons e evs ih => exact ih (selStep st e) (selStep_preserves_consistent st e h)

/-- C5: starting from any consistent state, after any interleaving of selector updates and resolving populations, the tile's bufferCache is never the hash of one selector while the GPU buffers hold data sliced for a selector of a different hash — a late write commits under its own (captured) hash or is discarded by the hash re-check. -/
theorem populate_selector_hash_safety :
    ∀ (st0 : EngineSelState) (evs : List SelEvent) (s1 s2 : Selector),
      selectorConsistent st0 →
      getSelectorHash s1 ≠ getSelectorHash s2 →
      ¬ ((runSel st0 evs).tile.bufferData = some s1 ∧
         (runSel st0 evs).tile.bufferCache = some (getSelectorHash s2)) := by
  intro st0 evs s1 s2 hcons hne hboth
  obtain ⟨h1, h2⟩ := hboth
  have hc := runSel_preserves_consistent st0 evs hcons s1 h1
  rw [hc, Option.some_inj] at h2
  exact hne h2

/-- Stale selector captured by an in-flight population. -/
def selStale : Selector := [("time", SelEntry.scalar (SelVal.num 1))]

/-- Selector installed by updateSelector while the population is in flight. -/
def selFresh : Selector := [("time", SelEntry.scalar (SelVal.num 2))]

/-- Initial engine state for the C5 witness: empty buffers. -/
def engineSelInit : EngineSelState := ⟨selStale, ⟨none, none⟩⟩

/-- Witness for C5: the selector changes while the stale population resolves; the buffers then hold the stale selector's data but never under the new selector's hash. -/
theorem populate_selector_hash_safety_witness :
    ¬ ((runSel engineSelInit
          [SelEvent.updateSelector selFresh, SelEvent.resolvePopulate selStale]).tile.bufferData
            = some selStale ∧
       (runSel engineSelInit
          [SelEvent.updateSelector selFresh, SelEvent.resolvePopulate selStale]).tile.bufferCache
            = some (getSelectorHash selFresh)) :=
  populate_selector_hash_safety engineSelInit
    [SelEvent.updateSelector selFresh, SelEvent.resolvePopulate selStale]
    selStale selFresh (fun _ h => nomatch h) (by decide)

/-! Part 8: Tile.loadChunks (source lines 2026-2054). -/

/-- Dot-joined list of strings. -/
def joinDot : List String → String
  | [] => ""
  | [s] => s
  | s :: rest => s ++ "." ++ joinDot rest

/-- Model of `chunk.join('.')`. -/
def chunkKeyStr (chunk : List Nat) : String := joinDot (chunk.map toString)

/-- Set-like insert into a list of keys. -/
def setInsert (l : List String) (k : String) : List String :=
  if k ∈ l then l else l ++ [k]

/-- Load-relevant state of one tile: staged chunk keys (`chunkedData`), in-flight keys (`_loading`), and the sequence of loader invocations made so far. -/
structure TileLoadState where
  chunkedData : List String
  loading : List String
  invocations : List String
deriving DecidableEq

/-- One iteration of the synchronous map inside `loadChunks`: a staged chunk resolves immediately; an unstaged chunk sets `_loading[key]` and invokes the loader. The staged set consulted is the one at call start (`chunkedData` is only written by the asynchronous loader callback), and `_loading` is never consulted. -/
def loadCallStep (st acc : TileLoadState) (chunk : List Nat) : TileLoadState :=
  if chunkKeyStr chunk ∈ st.chunkedData then acc
  else { acc with
    loading := setInsert acc.loading (chunkKeyStr chunk),
    invocations := acc.invocations ++ [chunkKeyStr chunk] }

/-- Model of the synchronous part of `loadChunks(chunks)`. -/
def applyLoadCall (st : TileLoadState) (chunks : List (List Nat)) : TileLoadState :=
  chunks.foldl (loadCallStep st) st

/-- The boolean the `loadChunks` promise resolves with once every per-chunk promise has resolved: true iff some chunk in the list was not staged when the call began. -/
def loadChunksResult (st : TileLoadState) (chunks : List (List Nat)) : Bool :=
  chunks.any (fun chunk => decide (chunkKeyStr chunk ∉ st.chunkedData))

/-- Model of the loader callback for `key`: stages the data and clears `_loading[key]`. -/
def applyComplete (st : TileLoadState) (key : String) : TileLoadState :=
  { st with
    chunkedData := setInsert st.chunkedData key,
    loading := st.loading.erase key }

/-- Interleavings of `loadChunks` calls and loader completions. -/
inductive LoadEvent where
  | call (chunks : List (List Nat))
  | complete (key : String)

/-- Execution of a list of load events. -/
def runLoad (st : TileLoadState) : List LoadEvent → TileLoadState
  | [] => st
  | LoadEvent.call cs :: evs => runLoad (applyLoadCall st cs) evs
  | LoadEvent.complete k :: evs => runLoad (applyComplete st k) evs

/-- C6, counterexample: two `loadChunks` calls for the same chunk (0,0) that interleave before the fetch completes invoke the loader twice — the code checks only `chunkedData`, never `_loading`, so concurrent calls do not share one fetch. -/
theorem loadChunks_no_shared_fetch :
    ((runLoad ⟨[], [], []⟩
        [LoadEvent.call [[0, 0]], LoadEvent.call [[0, 0]]]).invocations.count "0.0" = 2) ∧
    (2 : Nat) ≠ 1 := by
  constructor
  · decide
  · decide

/-- Loader-invocation accounting for one call, over any accumulator. -/
theorem applyLoadCall_fold_invocations (st : TileLoadState) :
    ∀ (chunks : List (List Nat)) (acc : TileLoadState),
      (chunks.foldl (loadCallStep st) acc).invocations =
        acc.invocations ++
          (chunks.filter (fun c => decide (chunkKeyStr c ∉ st.chunkedData))).map chunkKeyStr := by
  intro chunks
  induction chunks with
  | nil =>
    intro acc
    simp
  | cons c cs ih =>
    intro acc
    by_cases hc : chunkKeyStr c ∈ st.chunkedData
    · rw [List.foldl_cons, List.filter_cons, if_neg (by simp [hc])]
      simp only [loadCallStep, if_pos hc]
      exact ih acc
    · rw [List.foldl_cons, List.filter_cons, if_pos (by simp [hc])]
      simp only [loadCallStep, if_neg hc]
      rw [ih]
      simp

/-- The staged set is untouched by the synchronous part of a call, over any accumulator with the same staged set. -/
theorem applyLoadCall_fold_chunkedData (st : TileLoadState) :
    ∀ (chunks : List (List Nat)) (acc : TileLoadState),
      (chunks.foldl (loadCallStep st) acc).chunkedData = acc.chunkedData := by
  intro chunks
  induction chunks with
  | nil =>
    intro acc
    rfl
  | cons c cs ih =>
    intro acc
    by_cases hc : chunkKeyStr c ∈ st.chunkedData
    · rw [List.foldl_cons]
      simp only [loadCallStep, if_pos hc]
      exact ih acc
    · rw [List.foldl_cons]
      simp only [loadCallStep, if_neg hc]
      exact ih _

/-- C6, amended: `loadChunks` resolves true iff at least one listed chunk was unstaged at call time; the call leaves `chunkedData` unchanged (data is staged only when the loader calls back) and invokes the loader once per occurrence of an unstaged chunk in the list — so two concurrent calls listing the same unstaged chunk invoke the loader twice instead of sharing one fetch. -/
theorem loadChunks_result_and_invocations :
    (∀ (st : TileLoadState) (chunks : List (List Nat)),
      loadChunksResult st chunks = true ↔ ∃ c ∈ chunks, chunkKeyStr c ∉ st.chunkedData)
    ∧ (∀ (st : TileLoadState) (chunks : List (List Nat)),
      (applyLoadCall st chunks).invocations =
        st.invocations ++
          (chunks.filter (fun c => decide (chunkKeyStr c ∉ st.chunkedData))).map chunkKeyStr)
    ∧ (∀ (st : TileLoadState) (chunks : List (List Nat)),
      (applyLoadCall st chunks).chunkedData = st.chunkedData) := by
  refine ⟨?_, ?_, ?_⟩
  · intro st chunks
    rw [loadChunksResult, List.any_eq_true]
    constructor
    · intro ⟨c, hc, hd⟩
      exact ⟨c, hc, of_decide_eq_true hd⟩
    · intro ⟨c, hc, hd⟩
      exact ⟨c, hc, decide_eq_true hd⟩
  · intro st chunks
    exact applyLoadCall_fold_invocations st chunks st
  · intro st chunks
    exact applyLoadCall_fold_chunkedData st chunks st

/-! Part 9: loading tracker (source lines 529-680). -/

/-- Keys accepted by `setLoading`. -/
inductive LoadKey where
  | metadata
  | chunk
deriving DecidableEq

/-- Keys of the reducer's three id sets. -/
inductive ReducerKey where
  | metadata
  | chunk
  | loading
deriving DecidableEq

/-- State of the loading tracker: the reducer's three id sets, the hook's local id sets, and the `loading` ref. -/
structure TrackerState where
  metadata : List String
  chunk : List String
  loadingSet : List String
  localMeta : List String
  localChunk : List String
  loadingRef : Bool
deriving DecidableEq

/-- Reducer `set` action over a list of loaders. -/
def dispatchSet (st : TrackerState) (loaders : List (String × ReducerKey)) : TrackerState :=
  loaders.foldl (fun acc l =>
    match l.2 with
    | ReducerKey.metadata => { acc with metadata := setInsert acc.metadata l.1 }
    | ReducerKey.chunk => { acc with chunk := setInsert acc.chunk l.1 }
    | ReducerKey.loading => { acc with loadingSet := setInsert acc.loadingSet l.1 }) st

/-- Reducer `clear` action over a list of loaders. -/
def dispatchClear (st : TrackerState) (loaders : List (String × ReducerKey)) : TrackerState :=
  loaders.foldl (fun acc l =>
    match l.2 with
    | ReducerKey.metadata => { acc with metadata := acc.metadata.erase l.1 }
    | ReducerKey.chunk => { acc with chunk := acc.chunk.erase l.1 }
    | ReducerKey.loading => { acc with loadingSet := acc.loadingSet.erase l.1 }) st

/-- Reducer key of a load key. -/
def reducerKeyOf : LoadKey → ReducerKey
  | LoadKey.metadata => ReducerKey.metadata
  | LoadKey.chunk => ReducerKey.chunk

/-- Model of `setLoading(key)`: the fresh id joins the local set for its key; the dispatched `set` action carries that id and, when the `loading` ref is off, also the shared synthetic `loadingId` (`lid`); the ref ends up on. -/
def setLoading (lid : String) (key : LoadKey) (newId : String) (st : TrackerState) :
    TrackerState :=
  let st1 := match key with
    | LoadKey.metadata => { st with localMeta := setInsert st.localMeta newId }
    | LoadKey.chunk => { st with localChunk := setInsert st.localChunk newId }
  let loaders := [(newId, reducerKeyOf key)] ++
    (if st.loadingRef then [] else [(lid, ReducerKey.loading)])
  { dispatchSet st1 loaders with loadingRef := true }

/-- Model of `clearLoading(id, {forceClear})`: the id is removed from both local sets and cleared from both the metadata and chunk reducer sets; the synthetic `loadingId` is cleared only under `forceClear`. -/
def clearLoading (lid : String) (idOpt : Option String) (forceClear : Bool)
    (st : TrackerState) : TrackerState :=
  let st1 := match idOpt with
    | some i =>
      dispatchClear
        { st with localMeta := st.localMeta.erase i, localChunk := st.localChunk.erase i }
        [(i, ReducerKey.metadata), (i, ReducerKey.chunk)]
    | none => st
  if forceClear && st1.loadingRef then
    { dispatchClear st1 [(lid, ReducerKey.loading)] with loadingRef := false }
  else st1

/-- Model of the deferred cleanup effect that watches the local id sets: when both are empty and the ref is on it clears the synthetic id. It runs (at best) on a later render pass, never as part of the `clearLoading` call itself. -/
def effectCleanup (lid : String) (st : TrackerState) : TrackerState :=
  if st.loadingRef && st.localMeta.isEmpty && st.localChunk.isEmpty then
    { dispatchClear st [(lid, ReducerKey.loading)] with loadingRef := false }
  else st

/-- Empty tracker. -/
def trackerInit : TrackerState := ⟨[], [], [], [], [], false⟩

/-- Tracker state after setting one chunk id and then clearing it, without forceClear. -/
def trackerAfterClear : TrackerState :=
  clearLoading "lid" (some "i1") false (setLoading "lid" LoadKey.chunk "i1" trackerInit)

/-- C9, counterexample: after a completed `clearLoading` of the last chunk id, the metadata and chunk sets are empty yet the synthetic `loading` id is still set (it is removed only by the deferred effect or a forceClear), so `loading ⇔ |metadata| + |chunk| > 0` does not hold transactionally on every set/clear. -/
theorem loading_invariant_counterexample :
    ("lid" ∈ trackerAfterClear.loadingSet) ∧
    trackerAfterClear.metadata = [] ∧
    trackerAfterClear.chunk = [] ∧
    trackerAfterClear.loadingRef = true ∧
    ¬ (("lid" ∈ trackerAfterClear.loadingSet) ↔
        (trackerAfterClear.metadata ≠ [] ∨ trackerAfterClear.chunk ≠ [])) := by
  refine ⟨by decide, by decide, by decide, by decide, ?_⟩
  intro h
  have h1 : "lid" ∈ trackerAfterClear.loadingSet := by decide
  rcases h.mp h1 with h2 | h2
  · exact h2 (by decide)
  · exact h2 (by decide)

/-- The synthetic id survives a setInsert on another field and is inserted by its own. -/
theorem mem_setInsert_self (l : List String) (k : String) : k ∈ setInsert l k := by
  rw [setInsert]
  by_cases h : k ∈ l
  · rw [if_pos h]
    exact h
  · rw [if_neg h]
    simp

/-- Membership is preserved by setInsert. -/
theorem mem_setInsert_of_mem (l : List String) (k a : String) (h : a ∈ l) :
    a ∈ setInsert l k := by
  rw [setInsert]
  by_cases hk : k ∈ l
  · rw [if_pos hk]
    exact h
  · rw [if_neg hk]
    exact List.mem_append_left _ h

/-- setInsert never yields the empty list. -/
theorem setInsert_ne_nil (l : List String) (k : String) : setInsert l k ≠ [] := by
  rw [setInsert]
  by_cases h : k ∈ l
  · rw [if_pos h]
    exact List.ne_nil_of_mem h
  · rw [if_neg h]
    simp

/-- C9, amended: after every completed `setLoading` (from any state where the ref being on implies the synthetic id is set) the invariant holds — the synthetic id is in the `loading` set and the metadata or chunk set is nonempty; but `clearLoading` without forceClear leaves the `loading` set untouched, so the iff can only be restored later by the deferred cleanup effect or a forceClear. -/
theorem loading_tracker_amended :
    (∀ (st : TrackerState) (lid : String) (key : LoadKey) (newId : String),
      (st.loadingRef = true → lid ∈ st.loadingSet) →
      lid ∈ (setLoading lid key newId st).loadingSet ∧
        ((setLoading lid key newId st).metadata ≠ [] ∨
         (setLoading lid key newId st).chunk ≠ []))
    ∧ (∀ (st : TrackerState) (lid i : String),
      (clearLoading lid (some i) false st).loadingSet = st.loadingSet) := by
  constructor
  · intro st lid key newId href
    have hload : (setLoading lid key newId st).loadingSet =
        if st.loadingRef then st.loadingSet else setInsert st.loadingSet lid := by
      cases key <;> by_cases hr : st.loadingRef <;>
        simp [setLoading, dispatchSet, reducerKeyOf, hr]
    have hsets : (setLoading lid key newId st).metadata ≠ [] ∨
        (setLoading lid key newId st).chunk ≠ [] := by
      cases key with
      | metadata =>
        left
        have hm : (setLoading lid LoadKey.metadata newId st).metadata =
            setInsert st.metadata newId := by
          by_cases hr : st.loadingRef <;>
            simp [setLoading, dispatchSet, reducerKeyOf, hr]
        rw [hm]
        exact setInsert_ne_nil _ _
      | chunk =>
        right
        have hm : (setLoading lid LoadKey.chunk newId st).chunk =
            setInsert st.chunk newId := by
          by_cases hr : st.loadingRef <;>
            simp [setLoading, dispatchSet, reducerKeyOf, hr]
        rw [hm]
        exact setInsert_ne_nil _ _
    refine ⟨?_, hsets⟩
    rw [hload]
    by_cases hr : st.loadingRef
    · rw [if_pos hr]
      exact href hr
    · rw [if_neg hr]
      exact mem_setInsert_self _ _
  · intro st lid i
    simp [clearLoading, dispatchClear]

/-- Witness for the amended C9 theorem: a first setLoading from the empty tracker. -/
theorem loading_tracker_amended_witness :
    "lid" ∈ (setLoading "lid" LoadKey.chunk "i1" trackerInit).loadingSet ∧
      ((setLoading "lid" LoadKey.chunk "i1" trackerInit).metadata ≠ [] ∨
       (setLoading "lid" LoadKey.chunk "i1" trackerInit).chunk ≠ []) :=
  loading_tracker_amended.1 trackerInit "lid" LoadKey.chunk "i1" (by decide)

/-! Part 10: band and selector algebra (source lines 1818-1873). -/

/-- JS-object insert: overwrite in place when the key exists, else append at the end. -/
def objInsert {α : Type} : List (String × α) → String → α → List (String × α)
  | [], k, v => [(k, v)]
  | (k1, v1) :: rest, k, v =>
    if k1 = k then (k1, v) :: rest else (k1, v1) :: objInsert rest k v

/-- JS-object lookup with a default. -/
def objGet {α : Type} (dflt : α) : List (String × α) → String → α
  | [], _ => dflt
  | (k1, v1) :: rest, k => if k1 = k then v1 else objGet dflt rest k

/-- List-valued entries of a selector, in selector order. -/
def listEntries (selector : Selector) : List (String × List SelVal) :=
  selector.filterMap (fun kv =>
    match kv.2 with
    | SelEntry.list vs => some (kv.1, vs)
    | SelEntry.scalar _ => none)

/-- Scalar entries of a selector, in selector order. -/
def scalarEntries (selector : Selector) : List (String × SelVal) :=
  selector.filterMap (fun kv =>
    match kv.2 with
    | SelEntry.scalar v => some (kv.1, v)
    | SelEntry.list _ => none)

/-- Per-dimension band name tokens: the source checks `typeof values[0] === 'string'`, so when the FIRST listed value is a string the raw printed values are used as keys, otherwise every key is `dim_value`. -/
def bandKeys (selectorKey : String) (values : List SelVal) : List String :=
  match values.head? with
  | some (SelVal.str _) => values.map printVal
  | _ => values.map (fun v => selectorKey ++ "_" ++ printVal v)

/-- One step of the reduce in `getBandInformation`: combine the accumulated band mapping with one list-valued dimension (new keys in the outer loop, existing bands in the inner loop, starting from a fresh empty object). -/
def bandStep (bandMapping : List (String × List (String × SelVal)))
    (selectorKey : String) (values : List SelVal) :
    List (String × List (String × SelVal)) :=
  let keys := bandKeys selectorKey values
  let bands := bandMapping.map Prod.fst
  (keys.zip values).foldl (fun updated kv =>
    if bands.length > 0 then
      bands.foldl (fun u band =>
        objInsert u (band ++ "_" ++ kv.1)
          (objInsert (objGet [] bandMapping band) selectorKey kv.2)) updated
    else
      objInsert updated kv.1 [(selectorKey, kv.2)]) []

/-- Model of `getBandInformation(selector)`: reduce over the list-valued dimensions, then merge every scalar entry into every combined band. -/
def getBandInformation (selector : Selector) : List (String × List (String × SelVal)) :=
  let combinedBands := (listEntries selector).foldl
    (fun bm kv => bandStep bm kv.1 kv.2) []
  selector.foldl (fun cb kv =>
    match kv.2 with
    | SelEntry.scalar v => cb.map (fun bandKv => (bandKv.1, objInsert bandKv.2 kv.1 v))
    | SelEntry.list _ => cb) combinedBands

/-- Model of `getBands(variable, selector)`. -/
def getBands (variableName : String) (selector : Selector) : List String :=
  let bandNames := (getBandInformation selector).map Prod.fst
  if bandNames.length > 0 then bandNames else [variableName]

/-- Specification-side token rule, matching the source: keyed off the type of the dimension's first value. -/
def specToken (dim : String) (values : List SelVal) (v : SelVal) : String :=
  match values.head? with
  | some (SelVal.str _) => printVal v
  | _ => dim ++ "_" ++ printVal v

/-- Cartesian product of assignments over the given dimensions; the first dimension varies fastest. -/
def specAssignments : List (String × List SelVal) → List (List (String × SelVal))
  | [] => [[]]
  | (dim, values) :: rest =>
    (specAssignments rest).flatMap (fun asn => values.map (fun v => (dim, v) :: asn))

/-- Underscore-joined list of strings. -/
def joinUnderscore : List String → String
  | [] => ""
  | [s] => s
  | s :: rest => s ++ "_" ++ joinUnderscore rest

/-- Specification-side band name of an assignment: per-dimension tokens joined by underscores. -/
def specBandName (dims : List (String × List SelVal)) (asn : List (String × SelVal)) : String :=
  joinUnderscore ((dims.zip asn).map (fun p => specToken p.1.1 p.1.2 p.2.2))

/-- Specification-side band mapping over the given list dimensions: the Cartesian product, each assignment under its joined name. -/
def specBands (dims : List (String × List SelVal)) :
    List (String × List (String × SelVal)) :=
  (specAssignments dims).map (fun asn => (specBandName dims asn, asn))

/-- The token list of a dimension is the per-value map of the spec token. -/
theorem bandKeys_eq (dk : String) (vs : List SelVal) :
    bandKeys dk vs = vs.map (specToken dk vs) := by
  rw [bandKeys]
  cases h : vs.head? with
  | none => simp [specToken, h]
  | some v =>
    cases v with
    | str s => simp [specToken, h]
    | num n => simp [specToken, h]

/-- Assignments carry the dimension names in order. -/
theorem specAssignments_fst :
    ∀ (dims : List (String × List SelVal)) (asn : List (String × SelVal)),
      asn ∈ specAssignments dims → asn.map Prod.fst = dims.map Prod.fst := by
  intro dims
  induction dims with
  | nil =>
    intro asn h
    simp [specAssignments] at h
    subst h
    simp
  | cons d rest ih =>
    intro asn h
    simp only [specAssignments] at h
    rcases List.mem_flatMap.mp h with ⟨a2, ha2, hmem⟩
    rcases List.mem_map.mp hmem with ⟨v, _, rfl⟩
    simp [ih a2 ha2]

/-- Assignments have one entry per dimension. -/
theorem specAssignments_length :
    ∀ (dims : List (String × List SelVal)) (asn : List (String × SelVal)),
      asn ∈ specAssignments dims → asn.length = dims.length := by
  intro dims asn h
  have := specAssignments_fst dims asn h
  have h1 : (asn.map Prod.fst).length = (dims.map Prod.fst).length := by rw [this]
  simpa using h1

/-- With every dimension nonempty the product is nonempty. -/
theorem specAssignments_ne_nil :
    ∀ (dims : List (String × List SelVal)), (∀ q ∈ dims, q.2 ≠ []) →
      specAssignments dims ≠ [] := by
  intro dims
  induction dims with
  | nil =>
    intro _
    simp [specAssignments]
  | cons d rest ih =>
    intro h hnil
    simp only [specAssignments] at hnil
    rw [List.flatMap_eq_nil_iff] at hnil
    have hrest : specAssignments rest ≠ [] := ih (fun q hq => h q (List.mem_cons_of_mem _ hq))
    obtain ⟨asn, hasn⟩ := List.exists_mem_of_ne_nil _ hrest
    have := hnil asn hasn
    rw [List.map_eq_nil_iff] at this
    exact h d (List.mem_cons_self _ _) this

/-- Appending dimensions at the end splits the product with the tail varying slowest. -/
theorem specAssignments_append (P Q : List (String × List SelVal)) :
    specAssignments (P ++ Q) =
      (specAssignments Q).flatMap (fun aq => (specAssignments P).map (fun ap => ap ++ aq)) := by
  induction P with
  | nil =>
    simp [specAssignments]
  | cons d P ih =>
    obtain ⟨dk, vs⟩ := d
    have h1 : specAssignments ((dk, vs) :: (P ++ Q)) =
        (specAssignments (P ++ Q)).flatMap (fun asn => vs.map (fun v => (dk, v) :: asn)) := rfl
    have h2 : specAssignments ((dk, vs) :: P) =
        (specAssignments P).flatMap (fun asn => vs.map (fun v => (dk, v) :: asn)) := rfl
    rw [List.cons_append, h1, ih, List.flatMap_assoc, h2]
    congr 1
    funext aq
    rw [List.flatMap_map, List.map_flatMap]
    congr 1
    funext ap
    simp

/-- Joining after appending one element. -/
theorem joinUnderscore_append (l : List String) (s : String) :
    joinUnderscore (l ++ [s]) =
      if l = [] then s else joinUnderscore l ++ "_" ++ s := by
  induction l with
  | nil => simp [joinUnderscore]
  | cons a l ih =>
    cases l with
    | nil => simp [joinUnderscore]
    | cons b l2 =>
      have h1 : joinUnderscore ((a :: b :: l2) ++ [s]) =
          a ++ "_" ++ joinUnderscore ((b :: l2) ++ [s]) := rfl
      have h2 : joinUnderscore (a :: b :: l2) = a ++ "_" ++ joinUnderscore (b :: l2) := rfl
      rw [h1, ih, if_neg (by simp), if_neg (by simp), h2]
      simp [String.append_assoc]

/-- Band name of an assignment extended by one dimension. -/
theorem specBandName_append (P : List (String × List SelVal)) (d : String × List SelVal)
    (ap : List (String × SelVal)) (pv : String × SelVal)
    (hlen : ap.length = P.length) :
    specBandName (P ++ [d]) (ap ++ [pv]) =
      if P = [] then specToken d.1 d.2 pv.2
      else specBandName P ap ++ "_" ++ specToken d.1 d.2 pv.2 := by
  rw [specBandName, List.zip_append hlen.symm]
  have hsingle : ([d].zip [pv]).map (fun p => specToken p.1.1 p.1.2 p.2.2)
      = [specToken d.1 d.2 pv.2] := rfl
  rw [List.map_append, hsingle]
  rw [joinUnderscore_append]
  by_cases hP : P = []
  · subst hP
    have hap : ap = [] := List.length_eq_zero.mp (by simpa using hlen)
    subst hap
    simp [specBandName]
  · rw [if_neg hP, if_neg ?hne]
    · rw [specBandName]
    case hne =>
      intro hcon
      have hlen2 := congrArg List.length hcon
      rw [List.length_map, List.length_zip, hlen, min_self] at hlen2
      exact hP (List.length_eq_zero.mp (by simpa using hlen2))

/-- Inserting a fresh key appends it at the end. -/
theorem objInsert_of_not_mem {α : Type} (l : List (String × α)) (k : String) (v : α)
    (h : k ∉ l.map Prod.fst) : objInsert l k v = l ++ [(k, v)] := by
  induction l with
  | nil => rfl
  | cons p rest ih =>
    obtain ⟨k1, v1⟩ := p
    simp only [List.map_cons, List.mem_cons] at h
    push_neg at h
    simp only [objInsert]
    rw [if_neg (fun he => h.1 he.symm)]
    rw [ih h.2]
    simp

/-- Lookup in a tagged map under distinct names. -/
theorem objGet_map_self {α β : Type} (dflt : α) (f : β → String) (g : β → α) :
    ∀ (L : List β) (b : β), b ∈ L → (L.map f).Nodup →
      objGet dflt (L.map (fun x => (f x, g x))) (f b) = g b := by
  intro L
  induction L with
  | nil =>
    intro b h
    simp at h
  | cons x L ih =>
    intro b hb hnodup
    rw [List.map_cons, List.nodup_cons] at hnodup
    simp only [List.map_cons, objGet]
    by_cases he : f x = f b
    · rw [if_pos he]
      rcases List.mem_cons.mp hb with rfl | hbL
      · rfl
      · exact absurd (List.mem_map_of_mem f hbL) (he ▸ hnodup.1)
    · rw [if_neg he]
      rcases List.mem_cons.mp hb with rfl | hbL
      · exact absurd rfl he
      · exact ih b hbL hnodup.2

/-- Folding inserts of pairwise-distinct fresh keys appends them in order. -/
theorem foldl_objInsert_append {α : Type} :
    ∀ (pairs : List (String × α)) (acc : List (String × α)),
      (∀ p ∈ pairs, p.1 ∉ acc.map Prod.fst) →
      (pairs.map Prod.fst).Nodup →
      pairs.foldl (fun u kv => objInsert u kv.1 kv.2) acc = acc ++ pairs := by
  intro pairs
  induction pairs with
  | nil =>
    intro acc _ _
    simp
  | cons p ps ih =>
    intro acc hfresh hnodup
    simp only [List.foldl_cons]
    rw [objInsert_of_not_mem acc p.1 p.2 (hfresh p (List.mem_cons_self _ _))]
    rw [List.map_cons, List.nodup_cons] at hnodup
    have hf2 : ∀ q ∈ ps, q.1 ∉ (acc ++ [p]).map Prod.fst := by
      intro q hq
      rw [List.map_append, List.mem_append]
      push_neg
      refine ⟨hfresh q (List.mem_cons_of_mem _ hq), ?_⟩
      simp only [List.map_cons, List.map_nil, List.mem_singleton]
      intro he
      exact hnodup.1 (he ▸ List.mem_map_of_mem Prod.fst hq)
    rw [ih (acc ++ [p]) hf2 hnodup.2]
    simp

/-- Folding over a flatMap is the nested fold. -/
theorem foldl_flatMap {α β γ : Type} (l : List α) (g : α → List β) (f : γ → β → γ) :
    ∀ (init : γ),
      (l.flatMap g).foldl f init = l.foldl (fun acc a => (g a).foldl f acc) init := by
  induction l with
  | nil =>
    intro init
    rfl
  | cons a l ih =>
    intro init
    rw [List.flatMap_cons, List.foldl_append, List.foldl_cons, ih]

/-- The spec bands of a single dimension. -/
theorem specBands_singleton (dk : String) (vs : List SelVal) :
    specBands [(dk, vs)] = vs.map (fun v => (specToken dk vs v, [(dk, v)])) := by
  rw [specBands]
  have h1 : specAssignments [(dk, vs)] = vs.map (fun v => [(dk, v)]) := by
    simp [specAssignments]
  rw [h1, List.map_map]
  apply List.map_congr_left
  intro v _
  rfl

/-- The first list-valued dimension turns the empty mapping into its spec bands. -/
theorem bandStep_nil (dk : String) (vs : List SelVal)
    (hnodup : ((specBands [(dk, vs)]).map Prod.fst).Nodup) :
    bandStep [] dk vs = specBands [(dk, vs)] := by
  have hzip : (bandKeys dk vs).zip vs = vs.map (fun v => (specToken dk vs v, v)) := by
    rw [bandKeys_eq]
    have := List.zip_map' (specToken dk vs) id vs
    simpa using this
  have hstep : bandStep [] dk vs =
      (vs.map (fun v => (specToken dk vs v, v))).foldl
        (fun updated kv => objInsert updated kv.1 [(dk, kv.2)]) [] := by
    rw [bandStep]
    simp only [List.map_nil, List.length_nil, gt_iff_lt, lt_irrefl, if_false]
    rw [hzip]
  rw [hstep, List.foldl_map]
  have hpairs : vs.foldl
      (fun acc v => objInsert acc (specToken dk vs v) [(dk, v)]) [] =
      (vs.map (fun v => (specToken dk vs v, [(dk, v)]))).foldl
        (fun u kv => objInsert u kv.1 kv.2) [] := by
    rw [List.foldl_map]
  rw [hpairs]
  rw [foldl_objInsert_append _ [] (by simp) ?hnod]
  · rw [specBands_singleton]
    simp
  case hnod =>
    rw [← specBands_singleton]
    exact hnodup

/-- Pointwise congruence for flatMap. -/
theorem listFlatMapCongr {α β : Type} (l : List α) (f g : α → List β)
    (h : ∀ a ∈ l, f a = g a) : l.flatMap f = l.flatMap g := by
  induction l with
  | nil => rfl
  | cons a l ih =>
    rw [List.flatMap_cons, List.flatMap_cons, h a (List.mem_cons_self _ _),
      ih (fun b hb => h b (List.mem_cons_of_mem _ hb))]

/-- One reduce step on a nonempty spec state: combining with a fresh nonhollow dimension yields the spec bands of the extended dimension list (collision-free names assumed at both stages, as in the source's object-keyed bands). -/
theorem bandStep_spec (P : List (String × List SelVal)) (dk : String) (vs : List SelVal)
    (hPne : P ≠ [])
    (hPvals : ∀ q ∈ P, q.2 ≠ [])
    (hdk : dk ∉ P.map Prod.fst)
    (hnodupP : ((specBands P).map Prod.fst).Nodup)
    (hnodupPd : ((specBands (P ++ [(dk, vs)])).map Prod.fst).Nodup) :
    bandStep (specBands P) dk vs = specBands (P ++ [(dk, vs)]) := by
  have hasgn_ne : specAssignments P ≠ [] := specAssignments_ne_nil P hPvals
  have hbands : (specBands P).map Prod.fst = (specAssignments P).map (specBandName P) := by
    rw [specBands, List.map_map]
    rfl
  have hblen : ((specBands P).map Prod.fst).length > 0 := by
    rw [hbands, List.length_map]
    exact List.length_pos.mpr hasgn_ne
  have hnodupNames : ((specAssignments P).map (specBandName P)).Nodup := by
    rw [← hbands]
    exact hnodupP
  have hzip : (bandKeys dk vs).zip vs = vs.map (fun v => (specToken dk vs v, v)) := by
    rw [bandKeys_eq]
    have := List.zip_map' (specToken dk vs) id vs
    simpa using this
  have hstep1 : bandStep (specBands P) dk vs =
      ((bandKeys dk vs).zip vs).foldl (fun updated kv =>
        if ((specBands P).map Prod.fst).length > 0 then
          ((specBands P).map Prod.fst).foldl (fun u band =>
            objInsert u (band ++ "_" ++ kv.1)
              (objInsert (objGet [] (specBands P) band) dk kv.2)) updated
        else objInsert updated kv.1 [(dk, kv.2)]) [] := rfl
  rw [hstep1, hzip]
  have hfun : (fun (updated : List (String × List (String × SelVal))) (kv : String × SelVal) =>
      if ((specBands P).map Prod.fst).length > 0 then
        ((specBands P).map Prod.fst).foldl (fun u band =>
          objInsert u (band ++ "_" ++ kv.1)
            (objInsert (objGet [] (specBands P) band) dk kv.2)) updated
      else objInsert updated kv.1 [(dk, kv.2)]) =
      (fun updated kv =>
        ((specAssignments P).map (specBandName P)).foldl (fun u band =>
          objInsert u (band ++ "_" ++ kv.1)
            (objInsert (objGet [] (specBands P) band) dk kv.2)) updated) := by
    funext updated kv
    rw [if_pos hblen, hbands]
  rw [hfun, List.foldl_map]
  have hfun2 : (fun (acc : List (String × List (String × SelVal))) (v : SelVal) =>
      ((specAssignments P).map (specBandName P)).foldl (fun u band =>
        objInsert u (band ++ "_" ++ (specToken dk vs v, v).1)
          (objInsert (objGet [] (specBands P) band) dk (specToken dk vs v, v).2)) acc) =
      (fun acc v => ((specAssignments P).map (fun ap =>
        (specBandName P ap ++ "_" ++ specToken dk vs v,
         objInsert (objGet [] (specBands P) (specBandName P ap)) dk v))).foldl
        (fun u kv => objInsert u kv.1 kv.2) acc) := by
    funext acc v
    rw [List.foldl_map, List.foldl_map]
  rw [hfun2, ← foldl_flatMap]
  have hpairs : vs.flatMap (fun v => (specAssignments P).map (fun ap =>
      (specBandName P ap ++ "_" ++ specToken dk vs v,
       objInsert (objGet [] (specBands P) (specBandName P ap)) dk v))) =
      specBands (P ++ [(dk, vs)]) := by
    have hq : specAssignments [(dk, vs)] = vs.map (fun v => [(dk, v)]) := by
      simp [specAssignments]
    conv_rhs => rw [specBands, specAssignments_append, hq]
    rw [List.flatMap_map, List.map_flatMap]
    apply listFlatMapCongr
    intro v _
    rw [List.map_map]
    apply List.map_congr_left
    intro ap hap
    have hlen : ap.length = P.length := specAssignments_length P ap hap
    have hget : objGet [] (specBands P) (specBandName P ap) = ap := by
      rw [specBands]
      exact objGet_map_self [] (specBandName P) (fun x => x) (specAssignments P) ap hap
        hnodupNames
    have hfst : ap.map Prod.fst = P.map Prod.fst := specAssignments_fst P ap hap
    have hins : objInsert ap dk v = ap ++ [(dk, v)] := by
      apply objInsert_of_not_mem
      rw [hfst]
      exact hdk
    rw [hget, hins]
    simp only [Function.comp_apply]
    rw [specBandName_append P (dk, vs) ap (dk, v) hlen, if_neg hPne]
  rw [hpairs]
  rw [foldl_objInsert_append (specBands (P ++ [(dk, vs)])) [] (by simp) hnodupPd]
  simp

/-- The reduce over the remaining dimensions, starting from the spec state of a nonempty processed prefix. -/
theorem bandFold_spec :
    ∀ (Q P : List (String × List SelVal)),
      P ≠ [] →
      (∀ q ∈ P, q.2 ≠ []) →
      (∀ q ∈ Q, q.2 ≠ []) →
      ((P ++ Q).map Prod.fst).Nodup →
      (∀ n, n ≤ Q.length → ((specBands (P ++ Q.take n)).map Prod.fst).Nodup) →
      Q.foldl (fun bm kv => bandStep bm kv.1 kv.2) (specBands P) = specBands (P ++ Q) := by
  intro Q
  induction Q with
  | nil =>
    intro P _ _ _ _ _
    simp
  | cons d Q2 ih =>
    intro P hPne hPvals hQvals hnodup hstages
    obtain ⟨dk, vs⟩ := d
    rw [List.foldl_cons]
    have hd_fresh : dk ∉ P.map Prod.fst := by
      rw [List.map_append, List.nodup_append] at hnodup
      intro hmem
      exact hnodup.2.2 hmem (by simp)
    have hstep : bandStep (specBands P) dk vs = specBands (P ++ [(dk, vs)]) := by
      apply bandStep_spec P dk vs hPne hPvals hd_fresh
      · have h0 := hstages 0 (by omega)
        simpa using h0
      · have h1 := hstages 1 (by rw [List.length_cons]; omega)
        simpa using h1
    rw [hstep]
    have hpv : ∀ q ∈ P ++ [(dk, vs)], q.2 ≠ [] := by
      intro q hq
      rcases List.mem_append.mp hq with h | h
      · exact hPvals q h
      · rw [List.mem_singleton] at h
        subst h
        exact hQvals (dk, vs) (List.mem_cons_self _ _)
    have hqv : ∀ q ∈ Q2, q.2 ≠ [] :=
      fun q hq => hQvals q (List.mem_cons_of_mem _ hq)
    have hnd : (((P ++ [(dk, vs)]) ++ Q2).map Prod.fst).Nodup := by
      rw [List.append_assoc, List.singleton_append]
      exact hnodup
    have hst : ∀ n, n ≤ Q2.length →
        ((specBands ((P ++ [(dk, vs)]) ++ Q2.take n)).map Prod.fst).Nodup := by
      intro n hn
      have := hstages (n + 1) (by simpa using Nat.succ_le_succ hn)
      rw [List.take_succ_cons] at this
      rw [List.append_assoc, List.singleton_append]
      exact this
    have hres := ih (P ++ [(dk, vs)]) (by simp) hpv hqv hnd hst
    rw [hres, List.append_assoc, List.singleton_append]

/-- Names of the list-valued entries form a sublist of the selector's keys. -/
theorem listEntries_fst_sublist (sel : Selector) :
    ((listEntries sel).map Prod.fst).Sublist (sel.map Prod.fst) := by
  induction sel with
  | nil => simp [listEntries]
  | cons kv rest ih =>
    obtain ⟨k, e⟩ := kv
    cases e with
    | scalar v =>
      rw [listEntries, List.filterMap_cons]
      exact List.Sublist.cons _ ih
    | list vs =>
      rw [listEntries, List.filterMap_cons]
      exact List.Sublist.cons₂ _ ih

/-- Names of the scalar entries form a sublist of the selector's keys. -/
theorem scalarEntries_fst_sublist (sel : Selector) :
    ((scalarEntries sel).map Prod.fst).Sublist (sel.map Prod.fst) := by
  induction sel with
  | nil => simp [scalarEntries]
  | cons kv rest ih =>
    obtain ⟨k, e⟩ := kv
    cases e with
    | scalar v =>
      rw [scalarEntries, List.filterMap_cons]
      exact List.Sublist.cons₂ _ ih
    | list vs =>
      rw [scalarEntries, List.filterMap_cons]
      exact List.Sublist.cons _ ih

/-- With unique selector keys, scalar keys never collide with list-dimension keys. -/
theorem scalar_list_keys_disjoint (sel : Selector) (h : (sel.map Prod.fst).Nodup) :
    ∀ q ∈ scalarEntries sel, q.1 ∉ (listEntries sel).map Prod.fst := by
  induction sel with
  | nil =>
    intro q hq
    simp [scalarEntries] at hq
  | cons kv rest ih =>
    obtain ⟨k, e⟩ := kv
    rw [List.map_cons, List.nodup_cons] at h
    cases e with
    | scalar v =>
      intro q hq
      rw [scalarEntries, List.filterMap_cons] at hq
      rw [listEntries, List.filterMap_cons]
      rcases List.mem_cons.mp hq with rfl | hq2
      · intro hc
        exact h.1 ((listEntries_fst_sublist rest).mem hc)
      · exact ih h.2 q hq2
    | list vs =>
      intro q hq
      rw [scalarEntries, List.filterMap_cons] at hq
      rw [listEntries, List.filterMap_cons, List.map_cons]
      rw [List.mem_cons]
      push_neg
      constructor
      · intro he
        apply h.1
        rw [← he]
        exact (scalarEntries_fst_sublist rest).mem (List.mem_map_of_mem Prod.fst hq)
      · exact ih h.2 q hq

/-- The scalar-merge fold appends every scalar entry, in order, to every band's mapping. -/
theorem scalarFold_spec :
    ∀ (sel : Selector) (cb : List (String × List (String × SelVal)))
      (dimsNames : List String),
      (∀ b ∈ cb, b.2.map Prod.fst = dimsNames) →
      (∀ q ∈ scalarEntries sel, q.1 ∉ dimsNames) →
      ((scalarEntries sel).map Prod.fst).Nodup →
      sel.foldl (fun cb2 kv =>
        match kv.2 with
        | SelEntry.scalar v => cb2.map (fun bandKv => (bandKv.1, objInsert bandKv.2 kv.1 v))
        | SelEntry.list _ => cb2) cb =
      cb.map (fun b => (b.1, b.2 ++ scalarEntries sel)) := by
  intro sel
  induction sel with
  | nil =>
    intro cb dims _ _ _
    simp [scalarEntries]
  | cons kv rest ih =>
    intro cb dims hkeys hfree hnodup
    obtain ⟨k, e⟩ := kv
    cases e with
    | scalar v =>
      have hse : scalarEntries ((k, SelEntry.scalar v) :: rest)
          = (k, v) :: scalarEntries rest := rfl
      rw [hse] at hfree hnodup ⊢
      rw [List.map_cons, List.nodup_cons] at hnodup
      rw [List.foldl_cons]
      have hstep : cb.map (fun bandKv => (bandKv.1, objInsert bandKv.2 k v)) =
          cb.map (fun b => (b.1, b.2 ++ [(k, v)])) := by
        apply List.map_congr_left
        intro b hb
        rw [objInsert_of_not_mem b.2 k v (by
          rw [hkeys b hb]
          exact hfree (k, v) (List.mem_cons_self _ _))]
      have hkeys2 : ∀ b ∈ cb.map (fun b => (b.1, b.2 ++ [(k, v)])),
          b.2.map Prod.fst = dims ++ [k] := by
        intro b hb
        rcases List.mem_map.mp hb with ⟨b0, hb0, rfl⟩
        rw [List.map_append, hkeys b0 hb0]
        rfl
      have hfree2 : ∀ q ∈ scalarEntries rest, q.1 ∉ dims ++ [k] := by
        intro q hq
        rw [List.mem_append]
        push_neg
        refine ⟨hfree q (List.mem_cons_of_mem _ hq), ?_⟩
        rw [List.mem_singleton]
        intro he
        have hm : q.1 ∈ (scalarEntries rest).map Prod.fst :=
          List.mem_map_of_mem Prod.fst hq
        rw [he] at hm
        exact hnodup.1 hm
      have hres := ih (cb.map (fun b => (b.1, b.2 ++ [(k, v)]))) (dims ++ [k])
        hkeys2 hfree2 hnodup.2
      dsimp only
      rw [hstep, hres, List.map_map]
      apply List.map_congr_left
      intro b _
      simp
    | list vs =>
      have hse : scalarEntries ((k, SelEntry.list vs) :: rest) = scalarEntries rest := rfl
      rw [hse] at hfree hnodup ⊢
      rw [List.foldl_cons]
      dsimp only
      exact ih cb dims hkeys hfree hnodup

/-- The scalar-merge fold preserves the number of bands. -/
theorem scalarFold_length :
    ∀ (sel : Selector) (cb : List (String × List (String × SelVal))),
      (sel.foldl (fun cb2 kv =>
        match kv.2 with
        | SelEntry.scalar v => cb2.map (fun bandKv => (bandKv.1, objInsert bandKv.2 kv.1 v))
        | SelEntry.list _ => cb2) cb).length = cb.length := by
  intro sel
  induction sel with
  | nil =>
    intro cb
    rfl
  | cons kv rest ih =>
    intro cb
    obtain ⟨k, e⟩ := kv
    cases e with
    | scalar v =>
      rw [List.foldl_cons]
      dsimp only
      rw [ih, List.length_map]
    | list vs =>
      rw [List.foldl_cons]
      dsimp only
      exact ih cb

/-- objInsert never yields the empty object. -/
theorem objInsert_ne_nil {α : Type} (l : List (String × α)) (k : String) (v : α) :
    objInsert l k v ≠ [] := by
  cases l with
  | nil => simp [objInsert]
  | cons p rest =>
    obtain ⟨k1, v1⟩ := p
    simp only [objInsert]
    by_cases h : k1 = k
    · simp [h]
    · simp [h]

/-- A fold of objInserts over a nonempty index list, or from a nonempty accumulator, is nonempty. -/
theorem foldl_objInsert_step_ne_nil {α β : Type} (name : β → String) (val : β → α) :
    ∀ (L : List β) (u : List (String × α)),
      (L ≠ [] ∨ u ≠ []) →
      L.foldl (fun u2 b => objInsert u2 (name b) (val b)) u ≠ [] := by
  intro L
  induction L with
  | nil =>
    intro u h
    rcases h with h | h
    · exact absurd rfl h
    · simpa
  | cons b L ih =>
    intro u _
    rw [List.foldl_cons]
    exact ih _ (Or.inr (objInsert_ne_nil _ _ _))

/-- An empty value list resets the band mapping to empty. -/
theorem bandStep_empty_values (M : List (String × List (String × SelVal))) (dk : String) :
    bandStep M dk [] = [] := rfl

/-- The inner structure of bandStep preserves nonemptiness along the outer fold. -/
theorem bandStepFold_ne_nil (M : List (String × List (String × SelVal))) (dk : String) :
    ∀ (pairs : List (String × SelVal)) (u : List (String × List (String × SelVal))),
      (pairs ≠ [] ∨ u ≠ []) →
      pairs.foldl (fun updated kv =>
        if (M.map Prod.fst).length > 0 then
          (M.map Prod.fst).foldl (fun u2 band =>
            objInsert u2 (band ++ "_" ++ kv.1)
              (objInsert (objGet [] M band) dk kv.2)) updated
        else objInsert updated kv.1 [(dk, kv.2)]) u ≠ [] := by
  intro pairs
  induction pairs with
  | nil =>
    intro u h
    rcases h with h | h
    · exact absurd rfl h
    · simpa
  | cons kv pairs ih =>
    intro u _
    rw [List.foldl_cons]
    apply ih
    right
    by_cases hb : (M.map Prod.fst).length > 0
    · rw [if_pos hb]
      apply foldl_objInsert_step_ne_nil
      left
      intro hc
      rw [hc] at hb
      simp at hb
    · rw [if_neg hb]
      exact objInsert_ne_nil _ _ _

/-- A dimension with a nonempty value list yields a nonempty band mapping. -/
theorem bandStep_ne_nil (M : List (String × List (String × SelVal))) (dk : String)
    (vs : List SelVal) (hvs : vs ≠ []) : bandStep M dk vs ≠ [] := by
  have hziplen : ((bandKeys dk vs).zip vs).length = vs.length := by
    rw [List.length_zip, bandKeys_eq, List.length_map, min_self]
  have hzipne : (bandKeys dk vs).zip vs ≠ [] := by
    intro h
    rw [h] at hziplen
    exact hvs (List.length_eq_zero.mp hziplen.symm)
  have hdef : bandStep M dk vs =
      ((bandKeys dk vs).zip vs).foldl (fun updated kv =>
        if (M.map Prod.fst).length > 0 then
          (M.map Prod.fst).foldl (fun u2 band =>
            objInsert u2 (band ++ "_" ++ kv.1)
              (objInsert (objGet [] M band) dk kv.2)) updated
        else objInsert updated kv.1 [(dk, kv.2)]) [] := rfl
  rw [hdef]
  exact bandStepFold_ne_nil M dk _ [] (Or.inl hzipne)

/-- Emptiness of the reduce over list dimensions: the mapping is empty iff there were no dimensions and no seed, or the last dimension's value list is empty (each empty dimension resets the accumulator; each nonempty one makes it nonempty). -/
theorem bandFold_empty :
    ∀ (D : List (String × List SelVal)) (M : List (String × List (String × SelVal))),
      (D.foldl (fun bm kv => bandStep bm kv.1 kv.2) M = [] ↔
        ((D = [] ∧ M = []) ∨ (∃ p, D.getLast? = some p ∧ p.2 = []))) := by
  intro D
  induction D with
  | nil =>
    intro M
    simp
  | cons d D2 ih =>
    intro M
    rw [List.foldl_cons, ih]
    cases D2 with
    | nil =>
      simp only [List.getLast?_singleton]
      constructor
      · rintro (⟨-, hM⟩ | ⟨p, hp, -⟩)
        · right
          refine ⟨d, rfl, ?_⟩
          by_contra hd2
          exact bandStep_ne_nil M d.1 d.2 hd2 hM
        · simp at hp
      · rintro (⟨habs, -⟩ | ⟨p, hp, hpe⟩)
        · exact absurd habs (by simp)
        · left
          refine ⟨trivial, ?_⟩
          rw [Option.some_inj] at hp
          rw [← hp] at hpe
          have hd : bandStep M d.1 d.2 = bandStep M d.1 [] := by
            rw [hpe]
          rw [hd]
          exact bandStep_empty_values M d.1
    | cons e D3 =>
      rw [List.getLast?_cons_cons]
      constructor
      · rintro (⟨habs, -⟩ | h)
        · exact absurd habs (by simp)
        · exact Or.inr h
      · rintro (⟨habs, -⟩ | h)
        · exact absurd habs (by simp)
        · exact Or.inr h

/-- Emptiness of the full band mapping. -/
theorem getBandInformation_empty_iff (selector : Selector) :
    getBandInformation selector = [] ↔
      (listEntries selector = [] ∨
        ∃ p, (listEntries selector).getLast? = some p ∧ p.2 = []) := by
  have hdef : getBandInformation selector =
      selector.foldl (fun cb2 kv =>
        match kv.2 with
        | SelEntry.scalar v => cb2.map (fun bandKv => (bandKv.1, objInsert bandKv.2 kv.1 v))
        | SelEntry.list _ => cb2)
        ((listEntries selector).foldl (fun bm kv => bandStep bm kv.1 kv.2) []) := rfl
  constructor
  · intro h
    have hlen := scalarFold_length selector
      ((listEntries selector).foldl (fun bm kv => bandStep bm kv.1 kv.2) [])
    rw [hdef] at h
    rw [h] at hlen
    simp at hlen
    have hcomb : (listEntries selector).foldl (fun bm kv => bandStep bm kv.1 kv.2) [] = [] :=
      List.length_eq_zero.mp hlen.symm
    rcases (bandFold_empty (listEntries selector) []).mp hcomb with ⟨hD, -⟩ | h2
    · exact Or.inl hD
    · exact Or.inr h2
  · intro h
    have hcomb : (listEntries selector).foldl (fun bm kv => bandStep bm kv.1 kv.2) [] = [] := by
      apply (bandFold_empty (listEntries selector) []).mpr
      rcases h with h | h
      · exact Or.inl ⟨h, rfl⟩
      · exact Or.inr h
    rw [hdef, hcomb]
    exact List.length_eq_zero.mp (by simpa using scalarFold_length selector [])

/-- The selector of the spec's Cartesian-product scenario. -/
def exampleSelector : Selector :=
  [("a", SelEntry.list [SelVal.num 1, SelVal.num 2]),
   ("b", SelEntry.list [SelVal.str "x", SelVal.str "y"])]

/-- C7, amended: with at least one list-valued dimension, all value lists nonempty, unique selector keys, and collision-free band names at every stage, `getBandInformation` is exactly the Cartesian product over the list-valued dimensions (first dimension varying fastest) named by underscore-joined per-dimension tokens — the token rule keyed off the FIRST value's type per dimension — with every scalar entry merged into every band; the mapping is empty iff there is no list-valued dimension or the last list-valued dimension has an empty list; and the spec's example selector yields exactly the four bands a_1_x, a_2_x, a_1_y, a_2_y. -/
theorem getBandInformation_characterization :
    (∀ (selector : Selector),
      listEntries selector ≠ [] →
      (∀ q ∈ listEntries selector, q.2 ≠ []) →
      (selector.map Prod.fst).Nodup →
      (∀ n, n ≤ (listEntries selector).length →
        ((specBands ((listEntries selector).take n)).map Prod.fst).Nodup) →
      getBandInformation selector =
        (specAssignments (listEntries selector)).map (fun asn =>
          (specBandName (listEntries selector) asn, asn ++ scalarEntries selector)))
    ∧ (∀ selector : Selector,
      getBandInformation selector = [] ↔
        (listEntries selector = [] ∨
          ∃ p, (listEntries selector).getLast? = some p ∧ p.2 = []))
    ∧ getBands "v" exampleSelector = ["a_1_x", "a_2_x", "a_1_y", "a_2_y"] := by
  refine ⟨?_, getBandInformation_empty_iff, by decide⟩
  intro selector hne hvals hkeys hstages
  obtain ⟨d, D2, hD⟩ : ∃ d D2, listEntries selector = d :: D2 := by
    cases h : listEntries selector with
    | nil => exact absurd h hne
    | cons d D2 => exact ⟨d, D2, rfl⟩
  have hdef : getBandInformation selector =
      selector.foldl (fun cb2 kv =>
        match kv.2 with
        | SelEntry.scalar v => cb2.map (fun bandKv => (bandKv.1, objInsert bandKv.2 kv.1 v))
        | SelEntry.list _ => cb2)
        ((listEntries selector).foldl (fun bm kv => bandStep bm kv.1 kv.2) []) := rfl
  have hDnodup : ((listEntries selector).map Prod.fst).Nodup :=
    List.Nodup.sublist (listEntries_fst_sublist selector) hkeys
  have hcomb : (listEntries selector).foldl (fun bm kv => bandStep bm kv.1 kv.2) [] =
      specBands (listEntries selector) := by
    rw [hD, List.foldl_cons]
    have hfirst : bandStep [] d.1 d.2 = specBands [d] := by
      apply bandStep_nil
      have h1 := hstages 1 (by rw [hD, List.length_cons]; omega)
      rw [hD, List.take_succ_cons, List.take_zero] at h1
      exact h1
    rw [hfirst]
    have hpv : ∀ q ∈ [d], q.2 ≠ [] := by
      intro q hq
      rw [List.mem_singleton] at hq
      subst hq
      exact hvals q (by rw [hD]; exact List.mem_cons_self _ _)
    have hqv : ∀ q ∈ D2, q.2 ≠ [] := by
      intro q hq
      exact hvals q (by rw [hD]; exact List.mem_cons_of_mem _ hq)
    have hnd : (([d] ++ D2).map Prod.fst).Nodup := by
      rw [List.singleton_append]
      rw [hD] at hDnodup
      exact hDnodup
    have hst : ∀ n, n ≤ D2.length →
        ((specBands ([d] ++ D2.take n)).map Prod.fst).Nodup := by
      intro n hn
      have h1 := hstages (n + 1) (by rw [hD, List.length_cons]; omega)
      rw [hD, List.take_succ_cons] at h1
      rw [List.singleton_append]
      exact h1
    have hres := bandFold_spec D2 [d] (by simp) hpv hqv hnd hst
    rw [hres, List.singleton_append]
  have hbkeys : ∀ b ∈ specBands (listEntries selector),
      b.2.map Prod.fst = (listEntries selector).map Prod.fst := by
    intro b hb
    rcases List.mem_map.mp hb with ⟨asn, hasn, rfl⟩
    exact specAssignments_fst _ asn hasn
  have hfree : ∀ q ∈ scalarEntries selector, q.1 ∉ (listEntries selector).map Prod.fst :=
    scalar_list_keys_disjoint selector hkeys
  have hsnodup : ((scalarEntries selector).map Prod.fst).Nodup :=
    List.Nodup.sublist (scalarEntries_fst_sublist selector) hkeys
  rw [hdef, hcomb]
  rw [scalarFold_spec selector (specBands (listEntries selector))
    ((listEntries selector).map Prod.fst) hbkeys hfree hsnodup]
  rw [specBands, List.map_map]
  rfl

/-- C7, counterexample: the selector with one list-valued dimension holding an EMPTY list yields an empty band mapping, falsifying "empty iff no dimension is list-valued"; and on a mixed-type list the token rule follows the first value's type: selector a = [1, "z"] yields the band name "a_z" where the claimed per-value rule ("bare value for string values") would give "z". -/
theorem getBandInformation_counterexample :
    (getBandInformation [("a", SelEntry.list [])] = [] ∧
      listEntries [("a", SelEntry.list [])] ≠ []) ∧
    ((getBandInformation [("a", SelEntry.list [SelVal.num 1, SelVal.str "z"])]).map Prod.fst
        = ["a_1", "a_z"] ∧
      (["a_1", "a_z"] : List String) ≠ ["a_1", "z"]) := by
  refine ⟨⟨rfl, by decide⟩, rfl, by decide⟩

/-- Witness for the amended C7 theorem on the spec's example selector. -/
theorem getBandInformation_characterization_witness :
    getBandInformation exampleSelector =
      (specAssignments (listEntries exampleSelector)).map (fun asn =>
        (specBandName (listEntries exampleSelector) asn, asn ++ scalarEntries exampleSelector)) :=
  getBandInformation_characterization.1 exampleSelector (by decide) (by decide) (by decide)
    (by decide)
